import Mathlib

/-!
Verification of the churn-prediction pipeline core (cleaning, feature
derivation, train/test split, multi-model training, evaluation, best-model
selection and result summarisation).

The Python components are shallowly embedded as executable Lean functions:

* Python `dict`s (insertion ordered, unique keys) are association lists
  with first-key lookup and in-place update on insert of an existing key.
* `ModelTrainer.train_model` / `train_multiple_models`
  (src/src/models/model_trainer.py): a model's `train` call at a fixed
  training input either succeeds or raises; that outcome is carried by the
  embedded model record.  Wall-clock training time is not modelled; the
  sample and feature counts recorded in the training-info entry are.
* `ModelEvaluator._identify_best_model` and the phase-8 result assembly of
  `MLPipeline` (src/src/models/model_evaluator.py,
  src/src/pipeline/ml_pipeline.py).
* Metric values are embedded as rationals; only their ordering matters to
  the verified properties.
-/

/-- First-match lookup in an association list, the semantics of reading a
Python `dict` key (keys are unique, so the first match is the match). -/
def dictLookup (k : String) : List (String × α) → Option α
  | [] => none
  | (k', v) :: rest => if k' = k then some v else dictLookup k rest

/-- Python `d[k] = v`: replace the value in place when the key exists,
otherwise append the pair, preserving insertion order. -/
def dictInsert (k : String) (v : α) : List (String × α) → List (String × α)
  | [] => [(k, v)]
  | (k', v') :: rest =>
      if k' = k then (k, v) :: rest else (k', v') :: dictInsert k v rest

theorem dictLookup_dictInsert_self (k : String) (v : α) (d : List (String × α)) :
    dictLookup k (dictInsert k v d) = some v := by
  induction d with
  | nil => simp [dictInsert, dictLookup]
  | cons p rest ih =>
      obtain ⟨k', v'⟩ := p
      by_cases h : k' = k
      · simp [dictInsert, dictLookup, h]
      · simp [dictInsert, dictLookup, h, ih]

theorem dictLookup_dictInsert_ne (k k' : String) (hne : k' ≠ k) (v : α)
    (d : List (String × α)) :
    dictLookup k (dictInsert k' v d) = dictLookup k d := by
  induction d with
  | nil => simp [dictInsert, dictLookup, hne]
  | cons p rest ih =>
      obtain ⟨k'', v''⟩ := p
      by_cases h : k'' = k'
      · subst h
        simp [dictInsert, dictLookup, hne]
      · by_cases h2 : k'' = k
        · subst h2
          simp [dictInsert, dictLookup, h, Ne.symm hne]
        · simp [dictInsert, dictLookup, h, h2, ih]

/-! ### ModelTrainer (src/src/models/model_trainer.py) -/

namespace ModelTrainer

/-- Embedded `IModel` as seen by the trainer at one fixed training input:
only the model's name and whether its `train` call succeeds (or the message
of the exception it raises) are relevant to the trainer's bookkeeping. -/
structure MModel where
  name : String
  trainOutcome : Except String Unit
deriving Repr

/-- One value of the `training_info` dict: on success the recorded
`training_samples`/`features_count` pair with `success=True`; on failure the
recorded error message with `success=False`.  (`training_time` is wall-clock
time and is not modelled.) -/
inductive TrainEntry where
  | done (trainingSamples featuresCount : ℕ)
  | failed (error : String)
deriving DecidableEq, Repr

/-- The `success` flag stored in a `training_info` entry. -/
def TrainEntry.success : TrainEntry → Bool
  | .done _ _ => true
  | .failed _ => false

/-- `ModelTrainer.train_model`: runs the model's `train`; on success records
a success entry in `training_info` and returns the model, on failure records
a failure entry and re-raises.  `nS`/`nF` are `len(X_train)` and
`len(X_train.columns)`. -/
def train_model (nS nF : ℕ) (info : List (String × TrainEntry)) (m : MModel) :
    List (String × TrainEntry) × Except String MModel :=
  match m.trainOutcome with
  | .ok _ => (dictInsert m.name (.done nS nF) info, .ok m)
  | .error e => (dictInsert m.name (.failed e) info, .error e)

/-- `ModelTrainer.train_multiple_models`: calls `train_model` per model,
catching the exception of a failed model and continuing; the returned dict
holds only the successfully trained models, keyed by name. -/
def train_multiple_models (nS nF : ℕ) (ms : List MModel)
    (info : List (String × TrainEntry)) :
    List (String × TrainEntry) × List (String × MModel) :=
  match ms with
  | [] => (info, [])
  | m :: rest =>
      let step := train_model nS nF info m
      let restResult := train_multiple_models nS nF rest step.1
      match step.2 with
      | .ok tm => (restResult.1, (m.name, tm) :: restResult.2)
      | .error _ => (restResult.1, restResult.2)

/-- The training-info entry that `train_model` records for model `m`. -/
def expectedEntry (nS nF : ℕ) (m : MModel) : TrainEntry :=
  match m.trainOutcome with
  | .ok _ => .done nS nF
  | .error e => .failed e

/-- Names not trained in a batch keep their prior training-info binding. -/
theorem train_multiple_models_lookup_frame (nS nF : ℕ) (ms : List MModel)
    (info : List (String × TrainEntry)) (k : String)
    (hk : ∀ m ∈ ms, m.name ≠ k) :
    dictLookup k (train_multiple_models nS nF ms info).1 = dictLookup k info := by
  induction ms generalizing info with
  | nil => rfl
  | cons m rest ih =>
      have hm : m.name ≠ k := hk m (by simp)
      have hrest : ∀ m' ∈ rest, m'.name ≠ k := fun m' h => hk m' (by simp [h])
      cases hout : m.trainOutcome with
      | ok u =>
          simp only [train_multiple_models, train_model, hout]
          rw [ih _ hrest, dictLookup_dictInsert_ne _ _ hm]
      | error e =>
          simp only [train_multiple_models, train_model, hout]
          rw [ih _ hrest, dictLookup_dictInsert_ne _ _ hm]

/-- Whether the model's `train` call succeeds at the fixed training input. -/
def MModel.trainSucceeds (m : MModel) : Bool :=
  match m.trainOutcome with
  | .ok _ => true
  | .error _ => false

/-- The dict returned by `train_multiple_models` holds exactly the models
whose training succeeded, keyed by name, in submission order. -/
theorem train_multiple_models_snd (nS nF : ℕ) (ms : List MModel)
    (info : List (String × TrainEntry)) :
    (train_multiple_models nS nF ms info).2 =
      (ms.filter (fun m => m.trainSucceeds)).map (fun m => (m.name, m)) := by
  induction ms generalizing info with
  | nil => rfl
  | cons m rest ih =>
      cases hout : m.trainOutcome with
      | ok u =>
          simp [train_multiple_models, train_model, hout, List.filter_cons,
            MModel.trainSucceeds, ih]
      | error e =>
          simp [train_multiple_models, train_model, hout, List.filter_cons,
            MModel.trainSucceeds, ih]

/-- The entry recorded for a model has `success=True` iff training
succeeded. -/
theorem expectedEntry_success (nS nF : ℕ) (m : MModel) :
    (expectedEntry nS nF m).success = m.trainSucceeds := by
  cases hout : m.trainOutcome <;>
    simp [expectedEntry, TrainEntry.success, MModel.trainSucceeds, hout]

/-- After `train_multiple_models`, `training_info` binds every submitted
model's name to the entry its `train_model` call recorded. -/
theorem train_multiple_models_info (nS nF : ℕ) (ms : List MModel)
    (info₀ : List (String × TrainEntry)) (h : (ms.map MModel.name).Nodup) :
    ∀ m ∈ ms,
      dictLookup m.name (train_multiple_models nS nF ms info₀).1 =
        some (expectedEntry nS nF m) := by
  induction ms generalizing info₀ with
  | nil => intro m hm; cases hm
  | cons m rest ih =>
      simp only [List.map_cons, List.nodup_cons] at h
      intro m' hm'
      rcases List.mem_cons.mp hm' with heq | hmem
      · subst heq
        have hrest : ∀ x ∈ rest, x.name ≠ m'.name := by
          intro x hx heq
          exact h.1 (heq ▸ List.mem_map_of_mem MModel.name hx)
        cases hout : m'.trainOutcome with
        | ok u =>
            simp only [train_multiple_models, train_model, hout]
            rw [train_multiple_models_lookup_frame _ _ _ _ _ hrest,
              dictLookup_dictInsert_self]
            simp [expectedEntry, hout]
        | error e =>
            simp only [train_multiple_models, train_model, hout]
            rw [train_multiple_models_lookup_frame _ _ _ _ _ hrest,
              dictLookup_dictInsert_self]
            simp [expectedEntry, hout]
      · cases hout : m.trainOutcome with
        | ok u =>
            have := ih (dictInsert m.name (.done nS nF) info₀) h.2 m' hmem
            simpa only [train_multiple_models, train_model, hout] using this
        | error e =>
            have := ih (dictInsert m.name (.failed e) info₀) h.2 m' hmem
            simpa only [train_multiple_models, train_model, hout] using this

end ModelTrainer

open ModelTrainer in
/-- C1: training one model of a batch may fail without aborting
`train_multiple_models`: for every mapping of (distinctly named) models and
every training input, the returned mapping holds exactly the models whose
training succeeded, and afterwards `training_info` holds an entry for every
submitted model — `success=True` with the sample/feature counts for each
success, `success=False` with the raised error message for each failure. -/
theorem C1_train_many_partial_failure (nS nF : ℕ) (ms : List MModel)
    (info₀ : List (String × TrainEntry))
    (h : (ms.map MModel.name).Nodup) :
    (train_multiple_models nS nF ms info₀).2 =
      (ms.filter (fun m => m.trainSucceeds)).map (fun m => (m.name, m)) ∧
    ∀ m ∈ ms,
      dictLookup m.name (train_multiple_models nS nF ms info₀).1 =
        some (expectedEntry nS nF m) ∧
      (expectedEntry nS nF m).success = m.trainSucceeds :=
  ⟨train_multiple_models_snd nS nF ms info₀, fun m hm =>
    ⟨train_multiple_models_info nS nF ms info₀ h m hm, expectedEntry_success nS nF m⟩⟩

/-- Three concrete models, the middle one raising during training. -/
def demoModels : List ModelTrainer.MModel :=
  [⟨"LogisticRegression", .ok ()⟩,
   ⟨"RandomForest", .error "fit failed"⟩,
   ⟨"GradientBoosting", .ok ()⟩]

open ModelTrainer in
/-- Witness for C1: with three models of which one raises, two models come
back trained and `training_info` has all three entries, the failed one with
`success=False`. -/
theorem C1_train_many_partial_failure_witness :
    (demoModels.map MModel.name).Nodup ∧
    ((train_multiple_models 5 3 demoModels []).2 =
      (demoModels.filter (fun m => m.trainSucceeds)).map (fun m => (m.name, m)) ∧
    ∀ m ∈ demoModels,
      dictLookup m.name (train_multiple_models 5 3 demoModels []).1 =
        some (expectedEntry 5 3 m) ∧
      (expectedEntry 5 3 m).success = m.trainSucceeds) :=
  ⟨by decide, C1_train_many_partial_failure 5 3 demoModels [] (by decide)⟩

/-! ### ModelEvaluator (src/src/models/model_evaluator.py) -/

namespace ModelEvaluator

/-- A metrics record as stored in `evaluation_results`: a Python dict from
metric name to value.  Metric values are embedded as rationals. -/
abbrev Metrics := List (String × ℚ)

/-- `ModelEvaluator._identify_best_model`: linear scan keeping the first
model whose F1-Score strictly exceeds the best seen so far (initially -1);
entries without an `f1_score` key are skipped. -/
def identify_best_model (results : List (String × Metrics)) : Option String :=
  (results.foldl
    (fun acc p =>
      match dictLookup "f1_score" p.2 with
      | some f => if acc.2 < f then (some p.1, f) else acc
      | none => acc)
    ((none : Option String), (-1 : ℚ))).1

/-- The F1-Score of an entry, defaulting to 0 (only used at entries whose
`f1_score` key is present). -/
def f1Of (p : String × Metrics) : ℚ :=
  (dictLookup "f1_score" p.2).getD 0

/-- Characterisation of the best-model fold: either no entry beat the
accumulator, or the result is the first entry attaining the maximum
F1-Score among those that beat it. -/
theorem identify_best_fold_spec (l : List (String × Metrics))
    (hall : ∀ p ∈ l, dictLookup "f1_score" p.2 = some (f1Of p)) :
    ∀ acc : Option String × ℚ,
      (l.foldl
        (fun acc p =>
          match dictLookup "f1_score" p.2 with
          | some f => if acc.2 < f then (some p.1, f) else acc
          | none => acc) acc = acc ∧ ∀ p ∈ l, f1Of p ≤ acc.2) ∨
      (∃ i : Fin l.length,
        l.foldl
          (fun acc p =>
            match dictLookup "f1_score" p.2 with
            | some f => if acc.2 < f then (some p.1, f) else acc
            | none => acc) acc = (some (l.get i).1, f1Of (l.get i)) ∧
        acc.2 < f1Of (l.get i) ∧
        (∀ j : Fin l.length, f1Of (l.get j) ≤ f1Of (l.get i)) ∧
        (∀ j : Fin l.length, j < i → f1Of (l.get j) < f1Of (l.get i))) := by
  induction l with
  | nil => intro acc; left; exact ⟨rfl, fun p hp => absurd hp (List.not_mem_nil p)⟩
  | cons p rest ih =>
      intro acc
      have hp : dictLookup "f1_score" p.2 = some (f1Of p) := hall p (List.mem_cons_self p rest)
      have hallRest : ∀ q ∈ rest, dictLookup "f1_score" q.2 = some (f1Of q) :=
        fun q hq => hall q (List.mem_cons_of_mem p hq)
      by_cases hlt : acc.2 < f1Of p
      · -- the head beats the accumulator
        have hstep : (List.foldl
            (fun acc p =>
              match dictLookup "f1_score" p.2 with
              | some f => if acc.2 < f then (some p.1, f) else acc
              | none => acc) acc (p :: rest)) =
            List.foldl
            (fun acc p =>
              match dictLookup "f1_score" p.2 with
              | some f => if acc.2 < f then (some p.1, f) else acc
              | none => acc) (some p.1, f1Of p) rest := by
          simp [List.foldl_cons, hp, hlt]
        rcases ih hallRest (some p.1, f1Of p) with ⟨heq, hbound⟩ | ⟨i, heq, hgt, hmax, hfirst⟩
        · right
          refine ⟨⟨0, by simp⟩, ?_, hlt, ?_, ?_⟩
          · rw [hstep, heq]; simp
          · intro j
            rcases j with ⟨jv, hj⟩
            cases jv with
            | zero => simp
            | succ k =>
                have hk : k < rest.length := by simpa using hj
                have := hbound (rest.get ⟨k, hk⟩) (rest.get_mem _ _)
                simpa using this
          · intro j hj
            rcases j with ⟨jv, _⟩
            cases jv with
            | zero => exact absurd hj (by simp [Fin.lt_def])
            | succ k => exact absurd hj (by simp [Fin.lt_def])
        · right
          refine ⟨i.succ, ?_, ?_, ?_, ?_⟩
          · rw [hstep, heq]; simp
          · exact lt_trans hlt (by simpa using hgt)
          · intro j
            rcases j with ⟨jv, hj⟩
            cases jv with
            | zero =>
                have : f1Of p ≤ f1Of (rest.get i) := le_of_lt (by simpa using hgt)
                simpa using this
            | succ k =>
                have hk : k < rest.length := by simpa using hj
                have := hmax ⟨k, hk⟩
                simpa using this
          · intro j hj
            rcases j with ⟨jv, hjlen⟩
            cases jv with
            | zero => simpa using hgt
            | succ k =>
                have hk : k < rest.length := by simpa using hjlen
                have hklt : (⟨k, hk⟩ : Fin rest.length) < i := by
                  simpa [Fin.lt_def] using hj
                have := hfirst ⟨k, hk⟩ hklt
                simpa using this
      · -- the head does not beat the accumulator
        have hle : f1Of p ≤ acc.2 := le_of_not_lt hlt
        have hstep : (List.foldl
            (fun acc p =>
              match dictLookup "f1_score" p.2 with
              | some f => if acc.2 < f then (some p.1, f) else acc
              | none => acc) acc (p :: rest)) =
            List.foldl
            (fun acc p =>
              match dictLookup "f1_score" p.2 with
              | some f => if acc.2 < f then (some p.1, f) else acc
              | none => acc) acc rest := by
          simp [List.foldl_cons, hp, hlt]
        rcases ih hallRest acc with ⟨heq, hbound⟩ | ⟨i, heq, hgt, hmax, hfirst⟩
        · left
          refine ⟨by rw [hstep, heq], ?_⟩
          intro q hq
          rcases List.mem_cons.mp hq with hq | hq
          · subst hq; exact hle
          · exact hbound q hq
        · right
          refine ⟨i.succ, ?_, ?_, ?_, ?_⟩
          · rw [hstep, heq]; simp
          · simpa using hgt
          · intro j
            rcases j with ⟨jv, hj⟩
            cases jv with
            | zero =>
                have : f1Of p ≤ f1Of (rest.get i) :=
                  le_trans hle (le_of_lt (by simpa using hgt))
                simpa using this
            | succ k =>
                have hk : k < rest.length := by simpa using hj
                have := hmax ⟨k, hk⟩
                simpa using this
          · intro j hj
            rcases j with ⟨jv, hjlen⟩
            cases jv with
            | zero =>
                have : f1Of p < f1Of (rest.get i) :=
                  lt_of_le_of_lt hle (by simpa using hgt)
                simpa using this
            | succ k =>
                have hk : k < rest.length := by simpa using hjlen
                have hklt : (⟨k, hk⟩ : Fin rest.length) < i := by
                  simpa [Fin.lt_def] using hj
                have := hfirst ⟨k, hk⟩ hklt
                simpa using this

end ModelEvaluator

open ModelEvaluator in
/-- C2: best-model selection returns, for a non-empty results mapping whose
entries carry an F1-Score in [0,1], the model with the maximum F1-Score,
and among several models sharing the maximum it returns the first in
insertion order (every earlier entry is strictly smaller); for the empty
mapping it returns none. -/
theorem C2_select_best_first_max (results : List (String × ModelEvaluator.Metrics))
    (hall : ∀ p ∈ results,
      dictLookup "f1_score" p.2 = some (f1Of p) ∧ 0 ≤ f1Of p) :
    (results = [] → identify_best_model results = none) ∧
    (results ≠ [] → ∃ i : Fin results.length,
      identify_best_model results = some (results.get i).1 ∧
      (∀ j : Fin results.length, f1Of (results.get j) ≤ f1Of (results.get i)) ∧
      (∀ j : Fin results.length, j < i →
        f1Of (results.get j) < f1Of (results.get i))) := by
  constructor
  · intro h; subst h; rfl
  · intro hne
    rcases identify_best_fold_spec results (fun p hp => (hall p hp).1)
        ((none : Option String), (-1 : ℚ)) with ⟨heq, hbound⟩ | ⟨i, heq, _, hmax, hfirst⟩
    · rcases List.exists_mem_of_ne_nil results hne with ⟨p, hp⟩
      have h1 : f1Of p ≤ (-1 : ℚ) := hbound p hp
      have h2 : (0 : ℚ) ≤ f1Of p := (hall p hp).2
      linarith
    · exact ⟨i, by simpa [identify_best_model] using congrArg Prod.fst heq,
        hmax, hfirst⟩

/-- The tie-break example: A with F1 0.80, then B and C both with F1 0.85,
C submitted after B. -/
def demoResults : List (String × ModelEvaluator.Metrics) :=
  [("A", [("f1_score", 4/5)]), ("B", [("f1_score", 17/20)]),
   ("C", [("f1_score", 17/20)])]

open ModelEvaluator in
/-- Witness for C2: on the A/B/C tie example the selector picks B, the
first-inserted of the two maximal models, never C. -/
theorem C2_select_best_first_max_witness :
    (∀ p ∈ demoResults,
      dictLookup "f1_score" p.2 = some (f1Of p) ∧ 0 ≤ f1Of p) ∧
    (demoResults ≠ [] → ∃ i : Fin demoResults.length,
      identify_best_model demoResults = some (demoResults.get i).1 ∧
      (∀ j : Fin demoResults.length, f1Of (demoResults.get j) ≤ f1Of (demoResults.get i)) ∧
      (∀ j : Fin demoResults.length, j < i →
        f1Of (demoResults.get j) < f1Of (demoResults.get i))) ∧
    identify_best_model demoResults = some "B" :=
  ⟨by intro p hp; fin_cases hp <;> norm_num [dictLookup, f1Of],
   (C2_select_best_first_max demoResults
     (by intro p hp; fin_cases hp <;> norm_num [dictLookup, f1Of])).2,
   by norm_num [identify_best_model, demoResults, dictLookup]⟩

namespace ModelEvaluator

/-- Embedded trained model as seen by the evaluator at one fixed test set:
its name and the outcome of `evaluate_model`'s prediction-and-scoring body
(the metrics dict, or the message of the exception it raises). -/
structure EModel where
  name : String
  evalOutcome : Except String Metrics

/-- The evaluator's mutable state: the cumulative `evaluation_results` dict
and the `best_model` attribute. -/
structure EvaluatorState where
  evaluation_results : List (String × Metrics)
  best_model : Option String

/-- The evaluator state right after `ModelEvaluator.__init__`. -/
def initState : EvaluatorState := ⟨[], none⟩

/-- `ModelEvaluator.evaluate_model`: on success stores the metrics under
the model's name and returns them; on failure re-raises, leaving the stored
results untouched. -/
def evaluate_model (st : EvaluatorState) (m : EModel) :
    EvaluatorState × Except String Metrics :=
  match m.evalOutcome with
  | .ok metrics =>
      (⟨dictInsert m.name metrics st.evaluation_results, st.best_model⟩, .ok metrics)
  | .error e => (st, .error e)

/-- The per-model loop of `evaluate_multiple_models`: evaluation failures
are caught and the loop continues; successes are collected into the local
`all_results` dict. -/
def evaluate_many_loop (ms : List EModel) (st : EvaluatorState)
    (allResults : List (String × Metrics)) :
    EvaluatorState × List (String × Metrics) :=
  match ms with
  | [] => (st, allResults)
  | m :: rest =>
      let step := evaluate_model st m
      match step.2 with
      | .ok r => evaluate_many_loop rest step.1 (dictInsert m.name r allResults)
      | .error _ => evaluate_many_loop rest step.1 allResults

/-- `ModelEvaluator.evaluate_multiple_models`: runs the loop, then sets
`best_model` from the results of this call, and returns those results. -/
def evaluate_multiple_models (ms : List EModel) (st : EvaluatorState) :
    EvaluatorState × List (String × Metrics) :=
  let loop := evaluate_many_loop ms st []
  (⟨loop.1.evaluation_results, identify_best_model loop.2⟩, loop.2)

end ModelEvaluator

/-! ### MLPipeline result generation (src/src/pipeline/ml_pipeline.py) -/

namespace MLPipeline

open ModelEvaluator

/-- One row of `get_model_comparison`: model name with its accuracy,
precision, recall, F1-Score and AUC-ROC. -/
abbrev ComparisonRow := String × ℚ × ℚ × ℚ × ℚ × ℚ

/-- Builds one comparison row, raising (KeyError) when a metric key is
absent from the stored metrics dict. -/
def comparisonRow (p : String × Metrics) : Except String ComparisonRow :=
  match dictLookup "accuracy" p.2, dictLookup "precision" p.2,
      dictLookup "recall" p.2, dictLookup "f1_score" p.2,
      dictLookup "roc_auc" p.2 with
  | some a, some pr, some re, some f, some ro => .ok (p.1, a, pr, re, f, ro)
  | _, _, _, _, _ => .error "KeyError"

/-- `ModelEvaluator.get_model_comparison`: empty results give an empty
table, otherwise one row per stored result. -/
def get_model_comparison (st : EvaluatorState) : Except String (List ComparisonRow) :=
  st.evaluation_results.mapM comparisonRow

/-- The fields of `pipeline_results` that phase 8 writes. -/
structure PipelineSummary where
  best_model : Option String
  best_model_metrics : Metrics
  feature_importance : List (String × ℚ)
  model_comparison : List ComparisonRow
  success : Bool
deriving Repr

/-- `MLPipeline._generate_results`: reads the evaluator's `best_model`,
fetches that model from `trained_models` (a missing or `None` name yields
no model), builds the comparison table, and takes the best model's feature
importance when a best model exists (empty otherwise).  `importanceOf`
embeds `IModel.get_feature_importance` for the trained-model type `μ`. -/
def generate_results {μ : Type} (importanceOf : μ → List (String × ℚ))
    (evalSt : EvaluatorState) (trained : List (String × μ))
    (evaluationResults : List (String × Metrics)) :
    Except String PipelineSummary := do
  let bestName := evalSt.best_model
  let bestModel := bestName.bind (fun n => dictLookup n trained)
  let comparison ← get_model_comparison evalSt
  let fi := match bestModel with
            | some m => importanceOf m
            | none => []
  pure ⟨bestName,
    (bestName.bind (fun n => dictLookup n evaluationResults)).getD [],
    fi, comparison, true⟩

end MLPipeline

open ModelTrainer ModelEvaluator MLPipeline in
/-- C3: when every model fails training, the trained-model set is empty,
the evaluation phase runs on it without failing and selects no best model,
and result generation still succeeds, producing a summary whose best model
is none, whose best-model metrics are empty and whose feature-importance
mapping is empty. -/
theorem C3_all_models_fail_pipeline_survives (nS nF : ℕ) (ms : List MModel)
    (evalOf : MModel → Except String Metrics)
    (importanceOf : MModel → List (String × ℚ))
    (h : ∀ m ∈ ms, m.trainSucceeds = false) :
    (train_multiple_models nS nF ms []).2 = [] ∧
    generate_results importanceOf
      (evaluate_multiple_models
        (((train_multiple_models nS nF ms []).2).map
          (fun p => EModel.mk p.1 (evalOf p.2))) initState).1
      (train_multiple_models nS nF ms []).2
      (evaluate_multiple_models
        (((train_multiple_models nS nF ms []).2).map
          (fun p => EModel.mk p.1 (evalOf p.2))) initState).2 =
      .ok ⟨none, [], [], [], true⟩ := by
  have hempty : (train_multiple_models nS nF ms []).2 = [] := by
    rw [train_multiple_models_snd]
    have : ms.filter (fun m => m.trainSucceeds) = [] := by
      rw [List.filter_eq_nil_iff]
      intro m hm
      simp [h m hm]
    rw [this]; rfl
  refine ⟨hempty, ?_⟩
  rw [hempty]
  rfl

/-- Witness for C3: three models all of whose training raises. -/
def demoFailingModels : List ModelTrainer.MModel :=
  [⟨"LogisticRegression", .error "boom1"⟩,
   ⟨"RandomForest", .error "boom2"⟩,
   ⟨"GradientBoosting", .error "boom3"⟩]

open ModelTrainer ModelEvaluator MLPipeline in
/-- Witness for C3 at a concrete batch in which all three models fail. -/
theorem C3_all_models_fail_pipeline_survives_witness :
    (∀ m ∈ demoFailingModels, m.trainSucceeds = false) ∧
    ((train_multiple_models 5 3 demoFailingModels []).2 = [] ∧
    generate_results (fun _ => [])
      (evaluate_multiple_models
        (((train_multiple_models 5 3 demoFailingModels []).2).map
          (fun p => EModel.mk p.1 ((fun _ => Except.error "unused" : MModel → Except String Metrics) p.2)))
        initState).1
      (train_multiple_models 5 3 demoFailingModels []).2
      (evaluate_multiple_models
        (((train_multiple_models 5 3 demoFailingModels []).2).map
          (fun p => EModel.mk p.1 ((fun _ => Except.error "unused" : MModel → Except String Metrics) p.2)))
        initState).2 =
      .ok ⟨none, [], [], [], true⟩) :=
  ⟨by decide, C3_all_models_fail_pipeline_survives 5 3 demoFailingModels
    (fun _ => Except.error "unused") (fun _ => []) (by decide)⟩

/-! ### ModelTrainer.split_data (src/src/models/model_trainer.py)

`split_data` delegates to the learning library's `train_test_split` with
`stratify=y`.  The library's input validation and stratified allocation are
embedded; binary labels match the pipeline's boolean-coded churn target.
The seeded within-class permutation is abstracted: the embedded split takes
the first allocated members of each class for the test subset, which leaves
every property verified here (sizes, disjoint partition, per-class
proportions) unchanged. -/

namespace ModelTrainer

/-- Number of test samples: the ceiling of `test_size * n`. -/
def nTestOf (testSize : ℚ) (n : ℕ) : ℕ := (Int.ceil (testSize * n)).toNat

/-- Per-class test allocation for two classes (class order false, true, as
`np.unique` sorts them): floor shares `c*nt/n` per class, with the rounding
remainder given to a class whose share was rounded down. -/
def testAlloc (cf ct nt n : ℕ) : ℕ × ℕ :=
  let f0 := cf * nt / n
  let f1 := ct * nt / n
  let r := nt - (f0 + f1)
  if r = 0 then (f0, f1)
  else if cf * nt % n ≠ 0 then (f0 + r, f1) else (f0, f1 + r)

/-- `ModelTrainer.split_data`: validates the input as the library does
(consistent lengths, non-empty train and test subsets, at least two members
of every present class, at least as many train and test slots as classes),
then splits each class according to `testAlloc`, returning
`(X_train, X_test, y_train, y_test)`. -/
def split_data {α : Type} (testSize : ℚ) (X : List α) (y : List Bool) :
    Except String (List α × List α × List Bool × List Bool) :=
  if X.length ≠ y.length then
    .error "Found input variables with inconsistent numbers of samples"
  else
    let n := X.length
    let nt := nTestOf testSize n
    let ntr := n - nt
    if nt = 0 ∨ ntr = 0 then
      .error "the resulting train set or test set will be empty"
    else
      let pairs := X.zip y
      let falseRows := pairs.filter (fun p => !p.2)
      let trueRows := pairs.filter (fun p => p.2)
      let cf := falseRows.length
      let ct := trueRows.length
      let nClasses := (if 0 < cf then 1 else 0) + (if 0 < ct then 1 else 0)
      if (0 < cf ∧ cf < 2) ∨ (0 < ct ∧ ct < 2) then
        .error "the least populated class in y has only 1 member"
      else if nt < nClasses ∨ ntr < nClasses then
        .error "test or train size too small for the number of classes"
      else
        let alloc := testAlloc cf ct nt n
        let test := falseRows.take alloc.1 ++ trueRows.take alloc.2
        let train := falseRows.drop alloc.1 ++ trueRows.drop alloc.2
        .ok (train.map Prod.fst, test.map Prod.fst,
             train.map Prod.snd, test.map Prod.snd)

end ModelTrainer

open ModelTrainer in
/-- C5: `split_data` fails (the underlying split raises, so no Split is
returned) whenever the feature matrix or the label vector is empty or their
row counts differ. -/
theorem C5_split_rejects_empty_or_mismatched {α : Type} (testSize : ℚ)
    (X : List α) (y : List Bool)
    (h : X = [] ∨ y = [] ∨ X.length ≠ y.length) :
    ∃ e, split_data testSize X y = .error e := by
  by_cases hlen : X.length ≠ y.length
  · exact ⟨"Found input variables with inconsistent numbers of samples",
      by simp [split_data, hlen]⟩
  · push_neg at hlen
    have hX : X = [] := by
      rcases h with h | h | h
      · exact h
      · exact List.length_eq_zero.mp (by simp [hlen, h])
      · exact absurd hlen h
    subst hX
    have hy : y = [] := List.length_eq_zero.mp (by simpa using hlen.symm)
    subst hy
    refine ⟨"the resulting train set or test set will be empty", ?_⟩
    simp [split_data, nTestOf]

namespace ModelTrainer

/-- The two-class test allocation sums to `n_test`, rounds each class's
exact share `c*nt/n` to its floor or its floor plus one, and never exceeds
the class size when the train subset is non-empty. -/
theorem testAlloc_spec (cf ct nt n : ℕ) (hn : 0 < n) (hsum : cf + ct = n) :
    (testAlloc cf ct nt n).1 + (testAlloc cf ct nt n).2 = nt ∧
    cf * nt / n ≤ (testAlloc cf ct nt n).1 ∧
    (testAlloc cf ct nt n).1 ≤ cf * nt / n + 1 ∧
    ct * nt / n ≤ (testAlloc cf ct nt n).2 ∧
    (testAlloc cf ct nt n).2 ≤ ct * nt / n + 1 ∧
    (nt < n → (testAlloc cf ct nt n).1 ≤ cf ∧ (testAlloc cf ct nt n).2 ≤ ct) := by
  have htot : (cf * nt + ct * nt) / n = nt := by
    have hmul : cf * nt + ct * nt = nt * n := by
      rw [← Nat.add_mul, hsum]; ring
    rw [hmul, Nat.mul_div_cancel _ hn]
  rw [Nat.add_div hn] at htot
  have hm0 : cf * nt % n < n := Nat.mod_lt _ hn
  have hm1 : ct * nt % n < n := Nat.mod_lt _ hn
  have hle1 : ∀ c : ℕ, nt < n → c * nt / n + 1 ≤ c ∨ c = 0 := by
    intro c hlt
    rcases Nat.eq_zero_or_pos c with hc | hc
    · exact Or.inr hc
    · left
      have : c * nt / n < c := by
        rw [Nat.div_lt_iff_lt_mul hn]
        exact Nat.mul_lt_mul_of_pos_left hlt hc
      omega
  by_cases hδ : n ≤ cf * nt % n + ct * nt % n
  · -- rounding remainder 1
    rw [if_pos hδ] at htot
    have hr : nt - (cf * nt / n + ct * nt / n) = 1 := by omega
    by_cases hm : cf * nt % n ≠ 0
    · have halloc : testAlloc cf ct nt n = (cf * nt / n + 1, ct * nt / n) := by
        simp only [testAlloc, hr]
        rw [if_neg (by omega), if_pos hm]
      rw [halloc]
      refine ⟨by omega, by omega, by omega, by omega, by omega, ?_⟩
      intro hlt
      constructor
      · rcases hle1 cf hlt with h | h
        · simpa using h
        · exfalso
          subst h
          simp at hm
      · rcases hle1 ct hlt with h | h
        · simp; omega
        · subst h
          simp
    · -- the first class's share was exact, so the second's was not
      push_neg at hm
      exfalso
      omega
  · -- the floors already sum to nt
    rw [if_neg hδ] at htot
    have halloc : testAlloc cf ct nt n = (cf * nt / n, ct * nt / n) := by
      simp only [testAlloc]
      rw [if_pos (by omega)]
    rw [halloc]
    refine ⟨by omega, by omega, by omega, by omega, by omega, ?_⟩
    intro hlt
    constructor
    · rcases hle1 cf hlt with h | h
      · simp; omega
      · subst h; simp
    · rcases hle1 ct hlt with h | h
      · simp; omega
      · subst h; simp

/-- Integer distance between the allocated test count (scaled by `n`) and
the exact share `c*nt` is at most `n` when the allocation is the floor of
the share or that floor plus one. -/
theorem alloc_dist (c nt n t : ℕ) (hn : 0 < n)
    (h1 : c * nt / n ≤ t) (h2 : t ≤ c * nt / n + 1) :
    ((t : ℚ) * n - (c : ℚ) * nt) ≤ n ∧ -(n : ℚ) ≤ (t : ℚ) * n - (c : ℚ) * nt := by
  have e0 := Nat.div_add_mod (c * nt) n
  have hm : c * nt % n < n := Nat.mod_lt _ hn
  have e0q : (n : ℚ) * ((c * nt / n : ℕ) : ℚ) + ((c * nt % n : ℕ) : ℚ) = (c : ℚ) * nt := by
    exact_mod_cast congrArg (fun x : ℕ => (x : ℚ)) e0
  have hmq : ((c * nt % n : ℕ) : ℚ) < (n : ℚ) := by exact_mod_cast hm
  have hmq0 : (0 : ℚ) ≤ ((c * nt % n : ℕ) : ℚ) := by positivity
  have h1q : ((c * nt / n : ℕ) : ℚ) ≤ (t : ℚ) := by exact_mod_cast h1
  have h2q : (t : ℚ) ≤ ((c * nt / n : ℕ) : ℚ) + 1 := by exact_mod_cast h2
  constructor
  · nlinarith
  · nlinarith

/-- The test-subset proportion of a class is within `1/n_test` of its
overall proportion. -/
theorem prop_bound_test (c nt n t : ℕ) (hn : 0 < n) (hnt : 0 < nt)
    (h1 : c * nt / n ≤ t) (h2 : t ≤ c * nt / n + 1) :
    |(t : ℚ) / nt - (c : ℚ) / n| ≤ 1 / nt := by
  have hd := alloc_dist c nt n t hn h1 h2
  have hnq : (0 : ℚ) < n := by exact_mod_cast hn
  have hntq : (0 : ℚ) < nt := by exact_mod_cast hnt
  rw [abs_le]
  constructor
  · rw [div_sub_div _ _ (ne_of_gt hntq) (ne_of_gt hnq), neg_le,
      ← neg_div, div_le_div_iff₀ (by positivity) hntq]
    nlinarith [hd.2]
  · rw [div_sub_div _ _ (ne_of_gt hntq) (ne_of_gt hnq),
      div_le_div_iff₀ (by positivity) hntq]
    nlinarith [hd.1]

/-- The train-subset proportion of a class is within `1/n_train` of its
overall proportion. -/
theorem prop_bound_train (c nt n t : ℕ) (hn : 0 < n) (hntn : nt ≤ n)
    (hntr : 0 < n - nt) (h1 : c * nt / n ≤ t) (h2 : t ≤ c * nt / n + 1)
    (hc : t ≤ c) :
    |((c - t : ℕ) : ℚ) / ((n - nt : ℕ) : ℚ) - (c : ℚ) / n| ≤
      1 / ((n - nt : ℕ) : ℚ) := by
  have hd := alloc_dist c nt n t hn h1 h2
  have hnq : (0 : ℚ) < n := by exact_mod_cast hn
  have hntrq : (0 : ℚ) < ((n - nt : ℕ) : ℚ) := by exact_mod_cast hntr
  have hcast1 : ((c - t : ℕ) : ℚ) = (c : ℚ) - t := Nat.cast_sub hc
  have hcast2 : ((n - nt : ℕ) : ℚ) = (n : ℚ) - nt := Nat.cast_sub hntn
  rw [abs_le]
  constructor
  · rw [div_sub_div _ _ (ne_of_gt hntrq) (ne_of_gt hnq), neg_le,
      ← neg_div, div_le_div_iff₀ (by positivity) hntrq]
    rw [hcast1, hcast2]
    nlinarith [hd.1]
  · rw [div_sub_div _ _ (ne_of_gt hntrq) (ne_of_gt hnq),
      div_le_div_iff₀ (by positivity) hntrq]
    rw [hcast1, hcast2]
    nlinarith [hd.2]

/-- Re-zipping the projections of a list of pairs gives the list back. -/
theorem zip_proj (l : List (α × β)) :
    (l.map Prod.fst).zip (l.map Prod.snd) = l := by
  induction l with
  | nil => rfl
  | cons p rest ih => simp [ih]

/-- Every element of a list equals `c` iff counting gives all or nothing. -/
theorem count_all_eq (c : Bool) (l : List Bool) (h : ∀ x ∈ l, x = c) :
    l.count c = l.length ∧ l.count (!c) = 0 := by
  induction l with
  | nil => simp
  | cons b rest ih =>
      have hb : b = c := h b (by simp)
      have hr := ih (fun x hx => h x (by simp [hx]))
      subst hb
      constructor
      · simp [List.count_cons, hr.1]
      · simp [List.count_cons, hr.2]

/-- An empty input yields an empty test allocation target. -/
theorem nTestOf_zero (q : ℚ) : nTestOf q 0 = 0 := by
  simp [nTestOf]

/-- The false-class filter of a pair list is as long as the count of
`false` among the second components. -/
theorem filter_not_snd_length (pairs : List (α × Bool)) :
    (pairs.filter (fun p => !p.2)).length = (pairs.map Prod.snd).count false := by
  induction pairs with
  | nil => rfl
  | cons p rest ih =>
      cases hp : p.2 <;>
        simp [List.filter_cons, hp, List.count_cons, ih]

/-- The true-class filter of a pair list is as long as the count of `true`
among the second components. -/
theorem filter_snd_length (pairs : List (α × Bool)) :
    (pairs.filter (fun p => p.2)).length = (pairs.map Prod.snd).count true := by
  induction pairs with
  | nil => rfl
  | cons p rest ih =>
      cases hp : p.2 <;>
        simp [List.filter_cons, hp, List.count_cons, ih]

end ModelTrainer

open ModelTrainer in
/-- C8: a successful stratified split partitions the rows — train and test
sizes sum to the original row count and the train and test row sets
together are a permutation of the original rows, so no row lands in both
subsets — and every class's proportion in the test (resp. train) label
subset is within `1/n_test` (resp. `1/n_train`) of its proportion in the
full label vector. -/
theorem C8_split_partition_proportions {α : Type} (testSize : ℚ)
    (X : List α) (y : List Bool) (Xtr Xte : List α) (ytr yte : List Bool)
    (hok : split_data testSize X y = .ok (Xtr, Xte, ytr, yte)) :
    Xtr.length + Xte.length = X.length ∧
    (Xtr.zip ytr ++ Xte.zip yte).Perm (X.zip y) ∧
    ∀ b : Bool,
      |(yte.count b : ℚ) / yte.length - (y.count b : ℚ) / y.length| ≤
        1 / yte.length ∧
      |(ytr.count b : ℚ) / ytr.length - (y.count b : ℚ) / y.length| ≤
        1 / ytr.length := by
  simp only [split_data] at hok
  split_ifs at hok with h1 h2 h3 h4
  all_goals
    push_neg at h1 h2
    simp only [Except.ok.injEq, Prod.mk.injEq] at hok
    obtain ⟨hXtr, hXte, hytr, hyte⟩ := hok
    subst hXtr hXte hytr hyte
    set n := X.length with hn
    set nt := nTestOf testSize n with hntdef
    set pairs := X.zip y with hpairsdef
    set F := pairs.filter (fun p => !p.2) with hFdef
    set T := pairs.filter (fun p => p.2) with hTdef
    set a := testAlloc F.length T.length nt n with hadef
    have hn0 : 0 < n := by
      rcases Nat.eq_zero_or_pos n with h0 | h0
      · exact absurd (by rw [hntdef, h0, nTestOf_zero]) h2.1
      · exact h0
    have hnt0 : 0 < nt := Nat.pos_of_ne_zero h2.1
    have hntr0 : 0 < n - nt := Nat.pos_of_ne_zero h2.2
    have hntlt : nt < n := by omega
    have hntle : nt ≤ n := le_of_lt hntlt
    have hylen : y.length = n := by rw [hn]; exact h1.symm
    have hpairslen : pairs.length = n := by
      rw [hpairsdef, List.length_zip, hylen, ← hn, Nat.min_self]
    have hperm0 : (T ++ F).Perm pairs := by
      rw [hTdef, hFdef]
      exact List.filter_append_perm (fun p => p.2) pairs
    have hsum : F.length + T.length = n := by
      have hl := hperm0.length_eq
      rw [List.length_append, hpairslen] at hl
      omega
    obtain ⟨hasum, hf1, hf2, ht1, ht2, hcap⟩ :=
      testAlloc_spec F.length T.length nt n hn0 hsum
    rw [← hadef] at hasum hf1 hf2 ht1 ht2 hcap
    obtain ⟨hle1, hle2⟩ := hcap hntlt
    have hFlen_take : (F.take a.1).length = a.1 := by
      rw [List.length_take]; omega
    have hTlen_take : (T.take a.2).length = a.2 := by
      rw [List.length_take]; omega
    refine ⟨?_, ?_, ?_⟩
    · simp only [List.length_map, List.length_append, hFlen_take, hTlen_take,
        List.length_drop]
      omega
    · rw [zip_proj, zip_proj]
      have e1 : F.take a.1 ++ F.drop a.1 = F := List.take_append_drop _ _
      have e2 : T.take a.2 ++ T.drop a.2 = T := List.take_append_drop _ _
      refine List.Perm.trans List.perm_append_comm ?_
      rw [List.append_assoc]
      refine List.Perm.trans
        (List.Perm.append_left _ (List.perm_append_comm_assoc _ _ _)) ?_
      rw [← List.append_assoc, e1, e2]
      exact List.Perm.trans List.perm_append_comm hperm0
    · have hFmem : ∀ x ∈ F, x.2 = false := by
        intro x hx
        rw [hFdef] at hx
        have := (List.mem_filter.mp hx).2
        simpa using this
      have hTmem : ∀ x ∈ T, x.2 = true := by
        intro x hx
        rw [hTdef] at hx
        exact (List.mem_filter.mp hx).2
      have hsnds : ∀ (l : List (α × Bool)) (c : Bool), (∀ x ∈ l, x.2 = c) →
          (l.map Prod.snd).count c = l.length ∧
          (l.map Prod.snd).count (!c) = 0 := by
        intro l c hl
        have hall : ∀ x ∈ l.map Prod.snd, x = c := by
          intro x hx
          rcases List.mem_map.mp hx with ⟨p, hp, rfl⟩
          exact hl p hp
        have := count_all_eq c (l.map Prod.snd) hall
        simpa using this
      have hFta : ∀ x ∈ F.take a.1, x.2 = false :=
        fun x hx => hFmem x (List.take_subset _ _ hx)
      have hTta : ∀ x ∈ T.take a.2, x.2 = true :=
        fun x hx => hTmem x (List.take_subset _ _ hx)
      have hFdr : ∀ x ∈ F.drop a.1, x.2 = false :=
        fun x hx => hFmem x (List.drop_subset _ _ hx)
      have hTdr : ∀ x ∈ T.drop a.2, x.2 = true :=
        fun x hx => hTmem x (List.drop_subset _ _ hx)
      have hyte_len : (List.map Prod.snd (F.take a.1 ++ T.take a.2)).length = nt := by
        rw [List.length_map, List.length_append, hFlen_take, hTlen_take, hasum]
      have hytr_len : (List.map Prod.snd (F.drop a.1 ++ T.drop a.2)).length = n - nt := by
        rw [List.length_map, List.length_append, List.length_drop, List.length_drop]
        omega
      have hyte_false :
          (List.map Prod.snd (F.take a.1 ++ T.take a.2)).count false = a.1 := by
        rw [List.map_append, List.count_append]
        have hA := (hsnds _ false hFta).1
        have hB := (hsnds _ true hTta).2
        rw [hFlen_take] at hA
        simp only [Bool.not_true] at hB
        rw [hA, hB]
        omega
      have hyte_true :
          (List.map Prod.snd (F.take a.1 ++ T.take a.2)).count true = a.2 := by
        rw [List.map_append, List.count_append]
        have hA := (hsnds _ false hFta).2
        have hB := (hsnds _ true hTta).1
        rw [hTlen_take] at hB
        simp only [Bool.not_false] at hA
        rw [hA, hB]
        omega
      have hytr_false :
          (List.map Prod.snd (F.drop a.1 ++ T.drop a.2)).count false = F.length - a.1 := by
        rw [List.map_append, List.count_append]
        have hA := (hsnds _ false hFdr).1
        have hB := (hsnds _ true hTdr).2
        rw [List.length_drop] at hA
        simp only [Bool.not_true] at hB
        rw [hA, hB]
        omega
      have hytr_true :
          (List.map Prod.snd (F.drop a.1 ++ T.drop a.2)).count true = T.length - a.2 := by
        rw [List.map_append, List.count_append]
        have hA := (hsnds _ false hFdr).2
        have hB := (hsnds _ true hTdr).1
        rw [List.length_drop] at hB
        simp only [Bool.not_false] at hA
        rw [hA, hB]
        omega
      have hyF : y.count false = F.length := by
        conv_lhs => rw [← List.map_snd_zip X y (le_of_eq h1.symm)]
        rw [hFdef, hpairsdef]
        exact (filter_not_snd_length _).symm
      have hyT : y.count true = T.length := by
        conv_lhs => rw [← List.map_snd_zip X y (le_of_eq h1.symm)]
        rw [hTdef, hpairsdef]
        exact (filter_snd_length _).symm
      intro b
      cases b
      · constructor
        · rw [hyte_len, hyte_false, hyF, hylen]
          exact prop_bound_test F.length nt n a.1 hn0 hnt0 hf1 hf2
        · rw [hytr_len, hytr_false, hyF, hylen]
          exact prop_bound_train F.length nt n a.1 hn0 hntle hntr0 hf1 hf2 hle1
      · constructor
        · rw [hyte_len, hyte_true, hyT, hylen]
          exact prop_bound_test T.length nt n a.2 hn0 hnt0 ht1 ht2
        · rw [hytr_len, hytr_true, hyT, hylen]
          exact prop_bound_train T.length nt n a.2 hn0 hntle hntr0 ht1 ht2 hle2

open ModelTrainer in
/-- Witness for C5: an empty feature matrix is rejected by the split. -/
theorem C5_split_rejects_empty_or_mismatched_witness :
    (([] : List ℕ) = [] ∨ [true] = ([] : List Bool) ∨
      ([] : List ℕ).length ≠ [true].length) ∧
    ∃ e, split_data (1/5) ([] : List ℕ) [true] = .error e :=
  ⟨Or.inl rfl,
   C5_split_rejects_empty_or_mismatched (1/5) [] [true] (Or.inl rfl)⟩

/-- Ten concrete rows for the split example. -/
def demoX : List ℕ := [0, 1, 2, 3, 4, 5, 6, 7, 8, 9]

/-- Labels for the split example: six false, four true. -/
def demoY : List Bool :=
  [false, true, false, true, false, true, false, true, false, false]

open ModelTrainer in
/-- Witness for C8: the ten-row example splits into eight training and two
test rows with the stated partition and proportion properties. -/
theorem C8_split_partition_proportions_witness :
    split_data (1/5) demoX demoY =
      .ok ([4, 6, 8, 9, 1, 3, 5, 7], [0, 2],
           [false, false, false, false, true, true, true, true],
           [false, false]) ∧
    ([4, 6, 8, 9, 1, 3, 5, 7].length + [0, 2].length = demoX.length ∧
    (([4, 6, 8, 9, 1, 3, 5, 7].zip
        [false, false, false, false, true, true, true, true]) ++
      ([0, 2].zip [false, false])).Perm (demoX.zip demoY) ∧
    ∀ b : Bool,
      |(([false, false] : List Bool).count b : ℚ) /
          ([false, false] : List Bool).length -
        (demoY.count b : ℚ) / demoY.length| ≤
          1 / ([false, false] : List Bool).length ∧
      |(([false, false, false, false, true, true, true, true] : List Bool).count b : ℚ) /
          ([false, false, false, false, true, true, true, true] : List Bool).length -
        (demoY.count b : ℚ) / demoY.length| ≤
          1 / ([false, false, false, false, true, true, true, true] : List Bool).length) := by
  have hnt : nTestOf (1/5) 10 = 2 := by
    have h2 : ((1 : ℚ)/5) * ((10 : ℕ) : ℚ) = 2 := by norm_num
    rw [nTestOf, h2]
    norm_num
    decide
  have hok : split_data (1/5) demoX demoY =
      .ok ([4, 6, 8, 9, 1, 3, 5, 7], [0, 2],
           [false, false, false, false, true, true, true, true],
           [false, false]) := by
    simp only [split_data, demoX, demoY]
    norm_num [hnt, testAlloc]
  exact ⟨hok, C8_split_partition_proportions (1/5) demoX demoY _ _ _ _ hok⟩

/-! ### Tabular data model for the Cleaner and Feature Deriver

A pandas DataFrame is embedded row-major: named columns and rows of cells.
A cell is missing (`NaN`), numeric (rationals stand in for the float
values, which the verified claims compare but never round), or a string.
Well-formed frames (`Frame.WF`) have every row as wide as the column list;
pandas frames are always rectangular.  The cleaner's `cleaning_report`
bookkeeping is not modelled — no claim mentions it. -/

/-- A cell of a DataFrame. -/
inductive Val where
  | na
  | num (q : ℚ)
  | str (s : String)
deriving DecidableEq, Repr

/-- Missing-value test (pandas `isnull`). -/
def Val.isNa : Val → Bool
  | .na => true
  | _ => false

/-- How `astype(str)` renders a cell: `NaN` becomes the string "nan";
numbers use a float-style rendering (the exact float formatting is
irrelevant to the verified claims, which strip and compare strings). -/
def Val.render : Val → String
  | .na => "nan"
  | .num q => if q.den = 1 then toString q.num ++ ".0" else toString q
  | .str s => s

/-- A DataFrame. -/
structure Frame where
  cols : List String
  rows : List (List Val)
deriving DecidableEq, Repr

/-- Rectangularity: every row is as wide as the column list. -/
def Frame.WF (f : Frame) : Prop := ∀ r ∈ f.rows, r.length = f.cols.length

/-- Index of the first column named `c`. -/
def colIdxAux (c : String) : List String → Option ℕ
  | [] => none
  | c' :: rest => if c' = c then some 0 else (colIdxAux c rest).map (· + 1)

/-- Index of column `c` in the frame. -/
def Frame.colIdx (f : Frame) (c : String) : Option ℕ := colIdxAux c f.cols

/-- The cells of column `c`, top to bottom (an absent column reads as
empty; a cell beyond a ragged row's width reads as missing — well-formed
frames have no such cells). -/
def Frame.col (f : Frame) (c : String) : List Val :=
  match f.colIdx c with
  | some i => f.rows.map (fun r => r.getD i Val.na)
  | none => []

/-- Replace the element at position `i` (positions past the end are left
alone). -/
def modAt (i : ℕ) (g : α → α) : List α → List α
  | [] => []
  | x :: xs =>
      match i with
      | 0 => g x :: xs
      | j + 1 => x :: modAt j g xs

/-- Elementwise in-place update of column `c` (`data[c] = data[c].map g`);
an absent column leaves the frame unchanged. -/
def Frame.mapCol (f : Frame) (c : String) (g : Val → Val) : Frame :=
  match f.colIdx c with
  | some i => ⟨f.cols, f.rows.map (modAt i g)⟩
  | none => f

/-- Fallible counterpart of `modAt`. -/
def modAtE (i : ℕ) (g : α → Except String α) :
    List α → Except String (List α)
  | [] => .ok []
  | x :: xs =>
      match i with
      | 0 => do
          let y ← g x
          .ok (y :: xs)
      | j + 1 => do
          let ys ← modAtE j g xs
          .ok (x :: ys)

/-- Elementwise fallible in-place update of column `c` (`astype` raising on
a bad cell). -/
def Frame.mapColE (f : Frame) (c : String) (g : Val → Except String Val) :
    Except String Frame :=
  match f.colIdx c with
  | some i => do
      let rows ← f.rows.mapM (modAtE i g)
      .ok ⟨f.cols, rows⟩
  | none => .ok f

/-- `data[c] = vals`: overwrite an existing column in place, or append a
new one on the right. -/
def Frame.setCol (f : Frame) (c : String) (vals : List Val) : Frame :=
  match f.colIdx c with
  | some i => ⟨f.cols, (f.rows.zip vals).map (fun p => modAt i (fun _ => p.2) p.1)⟩
  | none => ⟨f.cols ++ [c], (f.rows.zip vals).map (fun p => p.1 ++ [p.2])⟩

/-- Column read that raises a `KeyError` when the column is absent, the
semantics of `data[c]` on the right-hand side. -/
def Frame.colE (f : Frame) (c : String) : Except String (List Val) :=
  if c ∈ f.cols then .ok (f.col c) else .error ("KeyError: " ++ c)

/-- Sequencing of one pipeline stage after a fallible one: a raised
error propagates, a produced frame feeds the next stage. -/
def exceptStep (g : Frame → Except String Frame) :
    Except String Frame → Except String Frame
  | .error e => .error e
  | .ok f => g f

theorem exceptStep_error (g : Frame → Except String Frame) (e : String) :
    exceptStep g (.error e) = .error e := rfl

theorem exceptStep_ok (g : Frame → Except String Frame) (f : Frame) :
    exceptStep g (.ok f) = g f := rfl

/-! ### Character-level strip (`str.strip()`)

Python's `strip` removes surrounding whitespace; the embedded version
handles the ASCII whitespace characters, which is all the claims exercise. -/

/-- ASCII whitespace. -/
def isSpaceChar (c : Char) : Bool :=
  c = ' ' ∨ c = '\t' ∨ c = '\n' ∨ c = '\r'

/-- Remove trailing whitespace. -/
def rtrimList (l : List Char) : List Char :=
  (l.reverse.dropWhile isSpaceChar).reverse

/-- Remove surrounding whitespace. -/
def trimCharList (l : List Char) : List Char :=
  rtrimList (l.dropWhile isSpaceChar)

/-- Python `s.strip()`. -/
def pyStrip (s : String) : String := ⟨trimCharList s.data⟩

/-- `astype(str).str.strip()` on one cell. -/
def stripCell (v : Val) : Val := .str (pyStrip v.render)

/-! ### TelcoDataCleaner (src/src/data/data_cleaner.py) -/

namespace TelcoDataCleaner

/-- The numeric columns of the median-imputation policy. -/
def numeric_columns : List String := ["tenure", "MonthlyCharges", "TotalCharges"]

/-- The categorical columns of the mode-imputation policy. -/
def categorical_fill_columns : List String :=
  ["gender", "Partner", "Dependents", "PhoneService",
   "MultipleLines", "InternetService", "OnlineSecurity",
   "OnlineBackup", "DeviceProtection", "TechSupport",
   "StreamingTV", "StreamingMovies", "Contract",
   "PaperlessBilling", "PaymentMethod"]

/-- The categorical columns stripped of surrounding whitespace (the
imputation list plus the target column). -/
def categorical_strip_columns : List String :=
  categorical_fill_columns ++ ["Churn"]

/-- The service columns whose "No ... service" values collapse to "No". -/
def service_columns : List String :=
  ["OnlineSecurity", "OnlineBackup", "DeviceProtection",
   "TechSupport", "StreamingTV", "StreamingMovies"]

/-- Median of a column (pandas skips missing values; an even count
averages the two middle values; a column with no numeric values gives
`NaN` — median of strings is not modelled, it never affects the claims). -/
def medianVal (vs : List Val) : Val :=
  let nums := vs.filterMap (fun v =>
    match v with
    | .num q => some q
    | _ => none)
  let sorted := nums.insertionSort (· ≤ ·)
  match sorted.length with
  | 0 => .na
  | n + 1 =>
      if (n + 1) % 2 = 1 then .num (sorted.getD ((n + 1) / 2) 0)
      else .num ((sorted.getD ((n + 1) / 2 - 1) 0 + sorted.getD ((n + 1) / 2) 0) / 2)

/-- `mode()[0]` of a column: the most frequent non-missing value (pandas
sorts the winners and takes the smallest — modelled on the cells'
rendering); raises `IndexError` on a column with no non-missing value. -/
def modeVal (vs : List Val) : Except String Val :=
  let present := vs.filter (fun v => !v.isNa)
  match present with
  | [] => .error "IndexError: mode of an all-missing column"
  | v :: rest =>
      .ok (rest.foldl
        (fun best w =>
          if present.count w > present.count best ∨
             (present.count w = present.count best ∧ w.render < best.render)
          then w else best)
        v)

/-- Median imputation for one numeric column, applied only when the column
exists and has a missing value. -/
def fillNumericCol (f : Frame) (c : String) : Frame :=
  if c ∈ f.cols then
    if (f.col c).any Val.isNa then
      let m := medianVal (f.col c)
      f.mapCol c (fun v => if v.isNa then m else v)
    else f
  else f

/-- Mode imputation for one categorical column, applied only when the
column exists and has a missing value. -/
def fillCategoricalCol (f : Frame) (c : String) : Except String Frame :=
  if c ∈ f.cols then
    if (f.col c).any Val.isNa then do
      let m ← modeVal (f.col c)
      .ok (f.mapCol c (fun v => if v.isNa then m else v))
    else .ok f
  else .ok f

/-- `TelcoDataCleaner._handle_missing_values`: numeric median fills, then
categorical mode fills. -/
def handle_missing_values (f : Frame) : Except String Frame :=
  (categorical_fill_columns).foldlM fillCategoricalCol
    (numeric_columns.foldl fillNumericCol f)

/-- The collapse of "No internet service"/"No phone service" to "No". -/
def replaceService (v : Val) : Val :=
  if v = .str "No internet service" ∨ v = .str "No phone service"
  then .str "No" else v

/-- `TelcoDataCleaner._handle_inconsistent_values`: strip the categorical
columns, then collapse the redundant service categories. -/
def handle_inconsistent_values (f : Frame) : Frame :=
  service_columns.foldl (fun acc c => acc.mapCol c replaceService)
    (categorical_strip_columns.foldl (fun acc c => acc.mapCol c stripCell) f)

/-- The value of a digit sequence, scanned left to right; any non-digit
character rejects the whole sequence. -/
def digitsVal : List Char → ℕ → Option ℕ
  | [], acc => some acc
  | c :: rest, acc =>
      if c.isDigit then digitsVal rest (acc * 10 + (c.toNat - 48))
      else none

/-- A non-empty all-digit character sequence read as a natural. -/
def listToNat? (l : List Char) : Option ℕ :=
  match l with
  | [] => none
  | _ => digitsVal l 0

/-- Split a character sequence at every decimal point. -/
def splitDot : List Char → List (List Char)
  | [] => [[]]
  | c :: rest =>
      if c = '.' then [] :: splitDot rest
      else
        match splitDot rest with
        | [] => [[c]]
        | g :: gs => (c :: g) :: gs

/-- An optionally signed digit sequence read as an integer. -/
def listToInt? (l : List Char) : Option ℤ :=
  match l with
  | '-' :: rest => (listToNat? rest).map (fun n => -(n : ℤ))
  | '+' :: rest => (listToNat? rest).map (fun n => (n : ℤ))
  | _ => (listToNat? l).map (fun n => (n : ℤ))

/-- Parses a plain decimal literal the way `pd.to_numeric` accepts it:
optional surrounding whitespace, optional sign, digits with an optional
fractional part (scientific notation is not modelled; which exact strings
parse does not matter to the claims). -/
def parseNumString (s : String) : Option ℚ :=
  let t := trimCharList s.data
  let core := match t with
    | '-' :: rest => rest
    | '+' :: rest => rest
    | _ => t
  let sign : ℚ := match t with
    | '-' :: _ => -1
    | _ => 1
  match splitDot core with
  | [ip] =>
      match listToNat? ip with
      | some k => some (sign * k)
      | none => none
  | [ip, fp] =>
      match listToNat? ip, listToNat? fp with
      | some k, some d => some (sign * ((k : ℚ) + (d : ℚ) / (10 ^ fp.length)))
      | _, _ => none
  | _ => none

/-- `pd.to_numeric(..., errors='coerce')` on one cell: numbers pass
through, missing stays missing, strings parse or coerce to missing. -/
def toNumericCoerce (v : Val) : Val :=
  match v with
  | .na => .na
  | .num q => .num q
  | .str s =>
      match parseNumString s with
      | some q => .num q
      | none => .na

/-- `astype(int)` on one cell: floats truncate toward zero, strings must
parse as integer literals, missing raises. -/
def toIntCell (v : Val) : Except String Val :=
  match v with
  | .num q => .ok (.num ((q.num / (q.den : ℤ) : ℤ) : ℚ))
  | .str s =>
      match listToInt? (trimCharList s.data) with
      | some k => .ok (.num (k : ℚ))
      | none => .error "ValueError: invalid literal for int"
  | .na => .error "ValueError: cannot convert missing value to integer"

/-- Second statement of `_convert_data_types`: cast `SeniorCitizen` to
int when the column exists. -/
def convertSenior (f1 : Frame) : Except String Frame :=
  if "SeniorCitizen" ∈ f1.cols then f1.mapColE "SeniorCitizen" toIntCell
  else .ok f1

/-- `TelcoDataCleaner._convert_data_types`: coerce `TotalCharges` to
numeric with unparseable values becoming missing, fill those with 0, and
cast `SeniorCitizen` to int. -/
def convert_data_types (f : Frame) : Except String Frame :=
  convertSenior
    (if "TotalCharges" ∈ f.cols then
      ((f.mapCol "TotalCharges" toNumericCoerce).mapCol "TotalCharges"
        (fun v => if v.isNa then .num 0 else v))
    else f)

/-- `drop_duplicates(keep='first')` on the rows. -/
def dedupRows (seen : List (List Val)) : List (List Val) → List (List Val)
  | [] => []
  | r :: rest =>
      if r ∈ seen then dedupRows seen rest
      else r :: dedupRows (r :: seen) rest

/-- `TelcoDataCleaner._remove_duplicates`. -/
def remove_duplicates (f : Frame) : Frame := ⟨f.cols, dedupRows [] f.rows⟩

/-- The tail of `clean_data` after the missing-value pass: value
normalization, type conversion, then duplicate removal. -/
def convertStage (f1 : Frame) : Except String Frame :=
  exceptStep (fun f3 => .ok (remove_duplicates f3))
    (convert_data_types (handle_inconsistent_values f1))

/-- `TelcoDataCleaner.clean_data`: works on a value copy of the caller's
frame (see the store-level model below for the aliasing claim), running
missing-value imputation, value normalization, type coercion and
duplicate removal in order. -/
def clean_data (f : Frame) : Except String Frame :=
  exceptStep convertStage (handle_missing_values f)

end TelcoDataCleaner

/-! ### Frame lemmas -/

theorem colIdxAux_lt_length (c : String) (l : List String) (i : ℕ)
    (h : colIdxAux c l = some i) : i < l.length := by
  induction l generalizing i with
  | nil => cases h
  | cons c' rest ih =>
      by_cases hc : c' = c
      · rw [colIdxAux, if_pos hc] at h
        cases h
        simp
      · rw [colIdxAux, if_neg hc] at h
        cases hj : colIdxAux c rest with
        | none => rw [hj] at h; cases h
        | some j =>
            rw [hj] at h
            simp only [Option.map_some'] at h
            cases h
            have := ih j hj
            simp only [List.length_cons]
            omega

theorem colIdxAux_isSome_iff (c : String) (l : List String) :
    (∃ i, colIdxAux c l = some i) ↔ c ∈ l := by
  induction l with
  | nil => simp [colIdxAux]
  | cons c' rest ih =>
      by_cases hc : c' = c
      · subst hc
        simp [colIdxAux]
      · rw [colIdxAux, if_neg hc]
        constructor
        · rintro ⟨i, hi⟩
          cases hj : colIdxAux c rest with
          | none => rw [hj] at hi; cases hi
          | some j =>
              exact List.mem_cons_of_mem _ (ih.mp ⟨j, hj⟩)
        · intro hmem
          rcases List.mem_cons.mp hmem with h | h
          · exact absurd h.symm hc
          · obtain ⟨j, hj⟩ := ih.mpr h
            exact ⟨j + 1, by rw [hj]; rfl⟩

theorem colIdxAux_get (c : String) (l : List String) (i : ℕ)
    (h : colIdxAux c l = some i) : l.getD i "" = c := by
  induction l generalizing i with
  | nil => cases h
  | cons c' rest ih =>
      by_cases hc : c' = c
      · rw [colIdxAux, if_pos hc] at h
        cases h
        simpa using hc
      · rw [colIdxAux, if_neg hc] at h
        cases hj : colIdxAux c rest with
        | none => rw [hj] at h; cases h
        | some j =>
            rw [hj] at h
            simp only [Option.map_some'] at h
            cases h
            simpa using ih j hj

theorem colIdxAux_ne (c c' : String) (l : List String) (i j : ℕ)
    (hi : colIdxAux c l = some i) (hj : colIdxAux c' l = some j)
    (hcc : c ≠ c') : i ≠ j := by
  intro heq
  subst heq
  exact hcc ((colIdxAux_get c l i hi).symm.trans (colIdxAux_get c' l i hj))

theorem modAt_length (i : ℕ) (g : α → α) (r : List α) :
    (modAt i g r).length = r.length := by
  induction r generalizing i with
  | nil => simp [modAt]
  | cons x xs ih =>
      cases i with
      | zero => rfl
      | succ j => simp [modAt, ih]

theorem modAt_getD_self (i : ℕ) (g : α → α) (r : List α) (d : α)
    (h : i < r.length) : (modAt i g r).getD i d = g (r.getD i d) := by
  induction r generalizing i with
  | nil => cases h
  | cons x xs ih =>
      cases i with
      | zero => rfl
      | succ j =>
          simp only [modAt, List.getD_cons_succ]
          exact ih j (by simpa using h)

theorem modAt_getD_ne (i j : ℕ) (g : α → α) (r : List α) (d : α)
    (h : i ≠ j) : (modAt i g r).getD j d = r.getD j d := by
  induction r generalizing i j with
  | nil => simp [modAt]
  | cons x xs ih =>
      cases i with
      | zero =>
          cases j with
          | zero => exact absurd rfl h
          | succ k => rfl
      | succ i' =>
          cases j with
          | zero => rfl
          | succ k =>
              simp only [modAt, List.getD_cons_succ]
              exact ih i' k (by omega)

theorem modAt_id (i : ℕ) (g : α → α) (r : List α) (d : α)
    (h : g (r.getD i d) = r.getD i d) : modAt i g r = r := by
  induction r generalizing i with
  | nil => simp [modAt]
  | cons x xs ih =>
      cases i with
      | zero =>
          simp only [List.getD_cons_zero] at h
          simp [modAt, h]
      | succ j =>
          simp only [List.getD_cons_succ] at h
          simp [modAt, ih j h]

theorem Frame.mapCol_cols (f : Frame) (c : String) (g : Val → Val) :
    (f.mapCol c g).cols = f.cols := by
  unfold Frame.mapCol
  cases f.colIdx c <;> rfl

theorem Frame.mapCol_wf (f : Frame) (c : String) (g : Val → Val)
    (hwf : f.WF) : (f.mapCol c g).WF := by
  unfold Frame.mapCol
  cases h : f.colIdx c with
  | none => exact hwf
  | some i =>
      intro r hr
      simp only at hr
      rcases List.mem_map.mp hr with ⟨r0, hr0, rfl⟩
      simp [modAt_length, hwf r0 hr0]

theorem Frame.col_mapCol_self (f : Frame) (c : String) (g : Val → Val)
    (hwf : f.WF) (hc : c ∈ f.cols) :
    (f.mapCol c g).col c = (f.col c).map g := by
  obtain ⟨i, hi⟩ := (colIdxAux_isSome_iff c f.cols).mpr hc
  have hidx : f.colIdx c = some i := hi
  have hlt : i < f.cols.length := colIdxAux_lt_length c f.cols i hi
  unfold Frame.mapCol Frame.col Frame.colIdx
  rw [hi]
  simp only [hi, List.map_map]
  apply List.map_congr_left
  intro r hr
  have hlen : i < r.length := by rw [hwf r hr]; exact hlt
  show (modAt i g r).getD i Val.na = g (r.getD i Val.na)
  exact modAt_getD_self i g r Val.na hlen

theorem Frame.col_mapCol_ne (f : Frame) (c c' : String) (g : Val → Val)
    (hcc : c' ≠ c) : (f.mapCol c' g).col c = f.col c := by
  unfold Frame.mapCol Frame.col Frame.colIdx
  cases hj : colIdxAux c' f.cols with
  | none => rfl
  | some j =>
      simp only
      cases hi : colIdxAux c f.cols with
      | none => rfl
      | some i =>
          simp only [List.map_map]
          apply List.map_congr_left
          intro r hr
          have hne : j ≠ i := colIdxAux_ne c' c f.cols j i hj hi hcc
          show (modAt j g r).getD i Val.na = r.getD i Val.na
          exact modAt_getD_ne j i g r Val.na hne

theorem Frame.mapCol_id (f : Frame) (c : String) (g : Val → Val)
    (h : ∀ v ∈ f.col c, g v = v) : f.mapCol c g = f := by
  unfold Frame.mapCol
  cases hi : f.colIdx c with
  | none => rfl
  | some i =>
      have hrows : f.rows.map (modAt i g) = f.rows := by
        apply List.map_congr_left ?_ |>.trans (List.map_id f.rows)
        intro r hr
        have hv : r.getD i Val.na ∈ f.col c := by
          unfold Frame.col
          rw [hi]
          exact List.mem_map_of_mem _ hr
        exact modAt_id i g r Val.na (h _ hv)
      simp [hrows]

theorem modAtE_length (i : ℕ) (g : α → Except String α) (r r' : List α)
    (h : modAtE i g r = .ok r') : r'.length = r.length := by
  induction r generalizing i r' with
  | nil =>
      simp only [modAtE] at h
      cases h
      rfl
  | cons x xs ih =>
      cases i with
      | zero =>
          simp only [modAtE] at h
          cases hg : g x with
          | ok y => rw [hg] at h; cases h; simp
          | error e => rw [hg] at h; cases h
      | succ j =>
          simp only [modAtE] at h
          cases hm : modAtE j g xs with
          | ok ys =>
              rw [hm] at h
              cases h
              simp [ih j ys hm]
          | error e => rw [hm] at h; cases h

theorem modAtE_getD_ne (i j : ℕ) (g : α → Except String α) (r r' : List α)
    (d : α) (h : modAtE i g r = .ok r') (hij : i ≠ j) :
    r'.getD j d = r.getD j d := by
  induction r generalizing i j r' with
  | nil =>
      simp only [modAtE] at h
      cases h
      rfl
  | cons x xs ih =>
      cases i with
      | zero =>
          simp only [modAtE] at h
          cases hg : g x with
          | ok y =>
              rw [hg] at h
              cases h
              cases j with
              | zero => exact absurd rfl hij
              | succ k => rfl
          | error e => rw [hg] at h; cases h
      | succ i' =>
          simp only [modAtE] at h
          cases hm : modAtE i' g xs with
          | ok ys =>
              rw [hm] at h
              cases h
              cases j with
              | zero => rfl
              | succ k =>
                  simp only [List.getD_cons_succ]
                  exact ih i' k ys hm (by omega)
          | error e => rw [hm] at h; cases h

theorem modAtE_getD_self (i : ℕ) (g : α → Except String α) (r r' : List α)
    (d : α) (hlt : i < r.length) (h : modAtE i g r = .ok r') :
    g (r.getD i d) = .ok (r'.getD i d) := by
  induction r generalizing i r' with
  | nil => cases hlt
  | cons x xs ih =>
      cases i with
      | zero =>
          simp only [modAtE] at h
          cases hg : g x with
          | ok y =>
              rw [hg] at h
              cases h
              simpa using hg
          | error e => rw [hg] at h; cases h
      | succ j =>
          simp only [modAtE] at h
          cases hm : modAtE j g xs with
          | ok ys =>
              rw [hm] at h
              cases h
              simpa using ih j ys (by simpa using hlt) hm
          | error e => rw [hm] at h; cases h

theorem modAtE_id (i : ℕ) (g : α → Except String α) (r : List α) (d : α)
    (h : g (r.getD i d) = .ok (r.getD i d)) : modAtE i g r = .ok r := by
  induction r generalizing i with
  | nil => simp [modAtE]
  | cons x xs ih =>
      cases i with
      | zero =>
          simp only [List.getD_cons_zero] at h
          simp only [modAtE, h]
          rfl
      | succ j =>
          simp only [List.getD_cons_succ] at h
          simp only [modAtE, ih j h]
          rfl

/-- Pointwise characterisation of a successful monadic map over rows. -/
theorem mapM_except_forall₂ (k : α → Except String β) (l : List α)
    (l' : List β) (h : l.mapM k = .ok l') :
    List.Forall₂ (fun x y => k x = .ok y) l l' := by
  induction l generalizing l' with
  | nil =>
      simp only [List.mapM_nil] at h
      cases h
      exact List.Forall₂.nil
  | cons x xs ih =>
      rw [List.mapM_cons] at h
      cases hk : k x with
      | error e => rw [hk] at h; cases h
      | ok y =>
          rw [hk] at h
          cases hm : xs.mapM k with
          | error e => rw [hm] at h; cases h
          | ok ys =>
              rw [hm] at h
              cases h
              exact List.Forall₂.cons hk (ih ys hm)

theorem mapM_except_id (k : α → Except String α) (l : List α)
    (h : ∀ x ∈ l, k x = .ok x) : l.mapM k = .ok l := by
  induction l with
  | nil => rfl
  | cons x xs ih =>
      rw [List.mapM_cons, h x (by simp), ih (fun x hx => h x (by simp [hx]))]
      rfl

/-- Mapping both sides of a pointwise relation. -/
theorem forall₂_map_both_mem {S : α → α → Prop} {R : β → β → Prop}
    {k1 k2 : α → β} :
    ∀ {l l' : List α}, List.Forall₂ S l l' →
      (∀ a ∈ l, ∀ b, S a b → R (k1 a) (k2 b)) →
      List.Forall₂ R (l.map k1) (l'.map k2) := by
  intro l l' h
  induction h with
  | nil => intro _; exact List.Forall₂.nil
  | cons hr htail ih =>
      intro himp
      exact List.Forall₂.cons (himp _ (by simp) _ hr)
        (ih (fun a ha b hs => himp a (by simp [ha]) b hs))

/-- Lists related by agreement under a projection have equal images. -/
theorem forall₂_map_congr {k : α → β} {l l' : List α}
    (h : List.Forall₂ (fun r r' => k r' = k r) l l') :
    l'.map k = l.map k := by
  induction h with
  | nil => rfl
  | cons hr _ ih => simp only [List.map_cons, ih, hr]

theorem Frame.mapColE_none (f : Frame) (c : String)
    (g : Val → Except String Val) (h : f.colIdx c = none) :
    f.mapColE c g = .ok f := by
  unfold Frame.mapColE
  rw [h]

theorem Frame.mapColE_some (f : Frame) (c : String)
    (g : Val → Except String Val) (i : ℕ) (hi : f.colIdx c = some i) :
    f.mapColE c g =
      (f.rows.mapM (modAtE i g)).map (fun rows => Frame.mk f.cols rows) := by
  unfold Frame.mapColE
  rw [hi]
  show (do
      let rows ← f.rows.mapM (modAtE i g)
      Except.ok (Frame.mk f.cols rows)) = _
  cases hm : f.rows.mapM (modAtE i g) <;> rfl

theorem Frame.mapColE_ok_cols (f : Frame) (c : String)
    (g : Val → Except String Val) (g' : Frame)
    (h : f.mapColE c g = .ok g') : g'.cols = f.cols := by
  cases hi : f.colIdx c with
  | none =>
      rw [Frame.mapColE_none f c g hi] at h
      cases h
      rfl
  | some i =>
      rw [Frame.mapColE_some f c g i hi] at h
      cases hm : f.rows.mapM (modAtE i g) with
      | error e => rw [hm] at h; cases h
      | ok rows' =>
          rw [hm] at h
          simp only [Except.map] at h
          cases h
          rfl

theorem Frame.mapColE_ok_rows (f : Frame) (c : String)
    (g : Val → Except String Val) (g' : Frame) (i : ℕ)
    (hi : f.colIdx c = some i) (h : f.mapColE c g = .ok g') :
    List.Forall₂ (fun r r' => modAtE i g r = .ok r') f.rows g'.rows := by
  rw [Frame.mapColE_some f c g i hi] at h
  cases hm : f.rows.mapM (modAtE i g) with
  | error e => rw [hm] at h; cases h
  | ok rows' =>
      rw [hm] at h
      simp only [Except.map] at h
      cases h
      exact mapM_except_forall₂ _ _ _ hm
/-- Right-to-left projection of a pointwise relation. -/
theorem forall₂_mem_right {R : α → β → Prop} {l : List α} {l' : List β}
    (h : List.Forall₂ R l l') : ∀ y ∈ l', ∃ x ∈ l, R x y := by
  induction h with
  | nil => intro y hy; cases hy
  | cons hr _ ih =>
      intro y hy
      rcases List.mem_cons.mp hy with hy | hy
      · exact ⟨_, by simp, hy ▸ hr⟩
      · obtain ⟨x, hx, hxy⟩ := ih y hy
        exact ⟨x, by simp [hx], hxy⟩

theorem Frame.mapColE_ok_wf (f : Frame) (c : String)
    (g : Val → Except String Val) (g' : Frame)
    (hwf : f.WF) (h : f.mapColE c g = .ok g') : g'.WF := by
  cases hi : f.colIdx c with
  | none =>
      rw [Frame.mapColE_none f c g hi] at h
      cases h
      exact hwf
  | some i =>
      have hcols := f.mapColE_ok_cols c g g' h
      have hfa := f.mapColE_ok_rows c g g' i hi h
      intro r' hr'
      obtain ⟨r, hr, hrel⟩ := forall₂_mem_right hfa r' hr'
      rw [hcols, modAtE_length i g r r' hrel]
      exact hwf r hr

theorem Frame.mapColE_ok_col_ne (f : Frame) (c c' : String)
    (g : Val → Except String Val) (g' : Frame)
    (hcc : c' ≠ c) (h : f.mapColE c' g = .ok g') : g'.col c = f.col c := by
  cases hj : f.colIdx c' with
  | none =>
      rw [Frame.mapColE_none f c' g hj] at h
      cases h
      rfl
  | some j =>
      have hcols := f.mapColE_ok_cols c' g g' h
      have hfa := f.mapColE_ok_rows c' g g' j hj h
      unfold Frame.col Frame.colIdx
      rw [hcols]
      cases hi : colIdxAux c f.cols with
      | none => rfl
      | some i =>
          have hne : j ≠ i :=
            colIdxAux_ne c' c f.cols j i hj hi hcc
          have hforall : List.Forall₂
              (fun r r' => r'.getD i Val.na = r.getD i Val.na)
              f.rows g'.rows := by
            refine hfa.imp ?_
            intro r r' hrel
            exact modAtE_getD_ne j i g r r' Val.na hrel hne
          exact forall₂_map_congr hforall

/-- A successful fallible column update turns every cell of the column
into the successful image of the old cell. -/
theorem Frame.mapColE_ok_col_self (f : Frame) (c : String)
    (g : Val → Except String Val) (g' : Frame)
    (hwf : f.WF) (hc : c ∈ f.cols) (h : f.mapColE c g = .ok g') :
    List.Forall₂ (fun v v' => g v = .ok v') (f.col c) (g'.col c) := by
  obtain ⟨i, hi⟩ := (colIdxAux_isSome_iff c f.cols).mpr hc
  have hidx : f.colIdx c = some i := hi
  have hlt : i < f.cols.length := colIdxAux_lt_length c f.cols i hi
  have hcols := f.mapColE_ok_cols c g g' h
  have hfa := f.mapColE_ok_rows c g g' i hidx h
  unfold Frame.col Frame.colIdx
  rw [hcols, hi]
  simp only
  refine forall₂_map_both_mem hfa ?_
  intro r hr r' hrel
  have hlen : i < r.length := by
    rw [hwf r hr]
    exact hlt
  exact modAtE_getD_self i g r r' Val.na hlen hrel

theorem Frame.mapColE_id (f : Frame) (c : String)
    (g : Val → Except String Val)
    (h : ∀ v ∈ f.col c, g v = .ok v) : f.mapColE c g = .ok f := by
  cases hi : f.colIdx c with
  | none => exact Frame.mapColE_none f c g hi
  | some i =>
      rw [Frame.mapColE_some f c g i hi]
      have hrows : f.rows.mapM (modAtE i g) = .ok f.rows := by
        apply mapM_except_id
        intro r hr
        refine modAtE_id i g r Val.na (h _ ?_)
        unfold Frame.col
        rw [hi]
        exact List.mem_map_of_mem _ hr
      rw [hrows]
      rfl

theorem zip_map_fst (l1 : List α) (l2 : List β) (h : l1.length ≤ l2.length)
    (k : α → γ) : (l1.zip l2).map (fun p => k p.1) = l1.map k := by
  have h2 : (l1.zip l2).map (fun p => k p.1) =
      ((l1.zip l2).map Prod.fst).map k := by
    rw [List.map_map]
    rfl
  rw [h2, List.map_fst_zip l1 l2 h]

theorem zip_map_snd (l1 : List α) (l2 : List β) (h : l2.length ≤ l1.length)
    (k : β → γ) : (l1.zip l2).map (fun p => k p.2) = l2.map k := by
  have h2 : (l1.zip l2).map (fun p => k p.2) =
      ((l1.zip l2).map Prod.snd).map k := by
    rw [List.map_map]
    rfl
  rw [h2, List.map_snd_zip l1 l2 h]

theorem colIdxAux_append_left (c : String) (l l2 : List String) (i : ℕ)
    (h : colIdxAux c l = some i) : colIdxAux c (l ++ l2) = some i := by
  induction l generalizing i with
  | nil => cases h
  | cons c' rest ih =>
      by_cases hc : c' = c
      · rw [colIdxAux, if_pos hc] at h
        cases h
        simp [colIdxAux, hc]
      · rw [colIdxAux, if_neg hc] at h
        cases hj : colIdxAux c rest with
        | none => rw [hj] at h; cases h
        | some j =>
            rw [hj] at h
            simp only [Option.map_some'] at h
            cases h
            simp only [List.cons_append, colIdxAux, if_neg hc, List.append_eq]
            rw [ih j hj]
            rfl

theorem colIdxAux_append_self (c : String) (l : List String)
    (h : c ∉ l) : colIdxAux c (l ++ [c]) = some l.length := by
  induction l with
  | nil => simp [colIdxAux]
  | cons c' rest ih =>
      have hc : c' ≠ c := fun hcc => h (by simp [hcc])
      have hrest : c ∉ rest := fun hm => h (by simp [hm])
      simp [colIdxAux, hc, ih hrest]

theorem getD_append_length (r : List α) (v d : α) :
    (r ++ [v]).getD r.length d = v := by
  induction r with
  | nil => rfl
  | cons x xs ih => simpa using ih

theorem Frame.setCol_cols_mem (f : Frame) (c c' : String) (vs : List Val)
    (h : c' ∈ f.cols) : c' ∈ (f.setCol c vs).cols := by
  unfold Frame.setCol
  cases f.colIdx c with
  | some i => exact h
  | none => simp [h]

theorem Frame.setCol_mem_self (f : Frame) (c : String) (vs : List Val) :
    c ∈ (f.setCol c vs).cols := by
  unfold Frame.setCol
  cases hi : f.colIdx c with
  | some i =>
      have hg := colIdxAux_get c f.cols i hi
      have hlt := colIdxAux_lt_length c f.cols i hi
      rw [← hg, List.getD_eq_getElem _ _ hlt]
      exact List.getElem_mem hlt
  | none => simp

theorem Frame.setCol_wf (f : Frame) (c : String) (vs : List Val)
    (hwf : f.WF) (hlen : vs.length = f.rows.length) : (f.setCol c vs).WF := by
  unfold Frame.setCol
  cases hi : f.colIdx c with
  | some i =>
      intro r hr
      simp only at hr
      rcases List.mem_map.mp hr with ⟨p, hp, rfl⟩
      have hm := List.of_mem_zip hp
      simp only [modAt_length]
      exact hwf p.1 hm.1
  | none =>
      intro r hr
      simp only at hr
      rcases List.mem_map.mp hr with ⟨p, hp, rfl⟩
      have hm := List.of_mem_zip hp
      simp only [List.length_append, List.length_cons, List.length_nil]
      rw [hwf p.1 hm.1]

theorem Frame.setCol_rows_length (f : Frame) (c : String) (vs : List Val)
    (hlen : vs.length = f.rows.length) :
    (f.setCol c vs).rows.length = f.rows.length := by
  unfold Frame.setCol
  cases f.colIdx c <;>
    simp [List.length_zip, hlen]

theorem Frame.setCol_col_ne (f : Frame) (c c' : String) (vs : List Val)
    (hwf : f.WF) (hlen : vs.length = f.rows.length) (hcc : c' ≠ c) :
    (f.setCol c vs).col c' = f.col c' := by
  have hzlen : f.rows.length ≤ vs.length := le_of_eq hlen.symm
  unfold Frame.setCol Frame.col Frame.colIdx
  cases hi : colIdxAux c f.cols with
  | some i =>
      simp only
      cases hj : colIdxAux c' f.cols with
      | none => rfl
      | some j =>
          have hne : i ≠ j := colIdxAux_ne c c' f.cols i j hi hj (Ne.symm hcc)
          simp only [List.map_map]
          have hcongr : ((f.rows.zip vs).map
              (fun p => (modAt i (fun _ => p.2) p.1).getD j Val.na)) =
              (f.rows.zip vs).map (fun p => p.1.getD j Val.na) := by
            apply List.map_congr_left
            intro p hp
            exact modAt_getD_ne i j _ p.1 Val.na hne
          show ((f.rows.zip vs).map
              (fun p => (modAt i (fun _ => p.2) p.1).getD j Val.na)) = _
          rw [hcongr]
          exact zip_map_fst f.rows vs hzlen (fun r => r.getD j Val.na)
  | none =>
      simp only
      cases hj : colIdxAux c' f.cols with
      | none =>
          cases hj2 : colIdxAux c' (f.cols ++ [c]) with
          | none => rfl
          | some j2 =>
              exfalso
              have hmem : c' ∈ f.cols ++ [c] :=
                (colIdxAux_isSome_iff c' (f.cols ++ [c])).mp ⟨j2, hj2⟩
              rcases List.mem_append.mp hmem with hmem | hmem
              · exact absurd ((colIdxAux_isSome_iff c' f.cols).mpr hmem)
                  (by simp [hj])
              · exact hcc (by simpa using hmem)
      | some j =>
          rw [colIdxAux_append_left c' f.cols [c] j hj]
          have hjlt := colIdxAux_lt_length c' f.cols j hj
          simp only [List.map_map]
          have hcongr : ((f.rows.zip vs).map
              (fun p => (p.1 ++ [p.2]).getD j Val.na)) =
              (f.rows.zip vs).map (fun p => p.1.getD j Val.na) := by
            apply List.map_congr_left
            intro p hp
            have hm := List.of_mem_zip hp
            have : j < p.1.length := by rw [hwf p.1 hm.1]; exact hjlt
            exact List.getD_append _ _ _ _ this
          show ((f.rows.zip vs).map
              (fun p => (p.1 ++ [p.2]).getD j Val.na)) = _
          rw [hcongr]
          exact zip_map_fst f.rows vs hzlen (fun r => r.getD j Val.na)

theorem Frame.col_eq (f : Frame) (c : String) (i : ℕ)
    (hi : f.colIdx c = some i) :
    f.col c = f.rows.map (fun r => r.getD i Val.na) := by
  unfold Frame.col
  rw [hi]

theorem Frame.col_none (f : Frame) (c : String)
    (hi : f.colIdx c = none) : f.col c = [] := by
  unfold Frame.col
  rw [hi]

theorem Frame.setCol_col_self (f : Frame) (c : String) (vs : List Val)
    (hwf : f.WF) (hlen : vs.length = f.rows.length) :
    (f.setCol c vs).col c = vs := by
  have hzlen : vs.length ≤ f.rows.length := le_of_eq hlen
  cases hi : f.colIdx c with
  | some i =>
      have hlt := colIdxAux_lt_length c f.cols i hi
      have hsc : f.setCol c vs = Frame.mk f.cols
          ((f.rows.zip vs).map (fun p => modAt i (fun _ => p.2) p.1)) := by
        unfold Frame.setCol
        rw [hi]
      have hidx2 : (f.setCol c vs).colIdx c = some i := by
        rw [hsc]
        exact hi
      rw [Frame.col_eq _ c i hidx2, hsc]
      simp only [List.map_map]
      have hcongr : ((f.rows.zip vs).map
          (fun p => (modAt i (fun _ => p.2) p.1).getD i Val.na)) =
          (f.rows.zip vs).map (fun p => p.2) := by
        apply List.map_congr_left
        intro p hp
        have hm := List.of_mem_zip hp
        have hplen : i < p.1.length := by rw [hwf p.1 hm.1]; exact hlt
        rw [modAt_getD_self i _ p.1 Val.na hplen]
      show ((f.rows.zip vs).map
          (fun p => (modAt i (fun _ => p.2) p.1).getD i Val.na)) = vs
      rw [hcongr]
      have h2 := zip_map_snd f.rows vs hzlen id
      simpa using h2
  | none =>
      have hnm : c ∉ f.cols := by
        intro hm
        obtain ⟨j, hj⟩ := (colIdxAux_isSome_iff c f.cols).mpr hm
        have hj2 : f.colIdx c = some j := hj
        rw [hj2] at hi
        cases hi
      have hsc : f.setCol c vs = Frame.mk (f.cols ++ [c])
          ((f.rows.zip vs).map (fun p => p.1 ++ [p.2])) := by
        unfold Frame.setCol
        rw [hi]
      have hidx2 : (f.setCol c vs).colIdx c = some f.cols.length := by
        rw [hsc]
        exact colIdxAux_append_self c f.cols hnm
      rw [Frame.col_eq _ c f.cols.length hidx2, hsc]
      simp only [List.map_map]
      have hcongr : ((f.rows.zip vs).map
          (fun p => (p.1 ++ [p.2]).getD f.cols.length Val.na)) =
          (f.rows.zip vs).map (fun p => p.2) := by
        apply List.map_congr_left
        intro p hp
        have hm := List.of_mem_zip hp
        have hplen : p.1.length = f.cols.length := hwf p.1 hm.1
        rw [← hplen]
        exact getD_append_length p.1 p.2 Val.na
      show ((f.rows.zip vs).map
          (fun p => (p.1 ++ [p.2]).getD f.cols.length Val.na)) = vs
      rw [hcongr]
      have h2 := zip_map_snd f.rows vs hzlen id
      simpa using h2

/-! ### Duplicate removal and strip lemmas -/

namespace TelcoDataCleaner

theorem dedupRows_subset (seen : List (List Val)) (l : List (List Val)) :
    ∀ r ∈ dedupRows seen l, r ∈ l := by
  induction l generalizing seen with
  | nil => intro r hr; cases hr
  | cons x xs ih =>
      intro r hr
      by_cases hx : x ∈ seen
      · rw [dedupRows, if_pos hx] at hr
        exact List.mem_cons_of_mem x (ih seen r hr)
      · rw [dedupRows, if_neg hx] at hr
        rcases List.mem_cons.mp hr with hr | hr
        · exact hr ▸ List.mem_cons_self x xs
        · exact List.mem_cons_of_mem x (ih (x :: seen) r hr)

theorem dedupRows_nodup (seen : List (List Val)) (l : List (List Val)) :
    (dedupRows seen l).Nodup ∧ ∀ r ∈ dedupRows seen l, r ∉ seen := by
  induction l generalizing seen with
  | nil => exact ⟨List.nodup_nil, fun r hr => absurd hr (List.not_mem_nil r)⟩
  | cons x xs ih =>
      by_cases hx : x ∈ seen
      · rw [dedupRows, if_pos hx]
        exact ih seen
      · rw [dedupRows, if_neg hx]
        obtain ⟨hnd, hns⟩ := ih (x :: seen)
        refine ⟨List.Nodup.cons ?_ hnd, ?_⟩
        · intro hxmem
          exact hns x hxmem (List.mem_cons_self x seen)
        · intro r hr
          rcases List.mem_cons.mp hr with hr | hr
          · exact hr ▸ hx
          · intro hseen
            exact hns r hr (List.mem_cons_of_mem x hseen)

theorem dedupRows_id (seen : List (List Val)) (l : List (List Val))
    (hnd : l.Nodup) (hns : ∀ r ∈ l, r ∉ seen) : dedupRows seen l = l := by
  induction l generalizing seen with
  | nil => rfl
  | cons x xs ih =>
      have hx : x ∉ seen := hns x (List.mem_cons_self x xs)
      rw [dedupRows, if_neg hx]
      rw [List.nodup_cons] at hnd
      have hxs : ∀ r ∈ xs, r ∉ x :: seen := by
        intro r hr
        intro hmem
        rcases List.mem_cons.mp hmem with hmem | hmem
        · exact hnd.1 (hmem ▸ hr)
        · exact hns r (List.mem_cons_of_mem x hr) hmem
      rw [ih (x :: seen) hnd.2 hxs]

theorem remove_duplicates_cols (f : Frame) :
    (remove_duplicates f).cols = f.cols := rfl

theorem remove_duplicates_wf (f : Frame) (hwf : f.WF) :
    (remove_duplicates f).WF := by
  intro r hr
  exact hwf r (dedupRows_subset [] f.rows r hr)

theorem remove_duplicates_col_subset (f : Frame) (c : String) :
    ∀ v ∈ (remove_duplicates f).col c, v ∈ f.col c := by
  intro v hv
  cases hi : f.colIdx c with
  | none =>
      have hi2 : (remove_duplicates f).colIdx c = none := hi
      rw [Frame.col_none _ c hi2] at hv
      cases hv
  | some i =>
      have hi2 : (remove_duplicates f).colIdx c = some i := hi
      rw [Frame.col_eq _ c i hi2] at hv
      rw [Frame.col_eq f c i hi]
      rcases List.mem_map.mp hv with ⟨r, hr, rfl⟩
      exact List.mem_map_of_mem _ (dedupRows_subset [] f.rows r hr)

theorem remove_duplicates_id (f : Frame) (hnd : f.rows.Nodup) :
    remove_duplicates f = f := by
  unfold remove_duplicates
  rw [dedupRows_id [] f.rows hnd (fun r _ => List.not_mem_nil r)]

theorem remove_duplicates_nodup (f : Frame) :
    (remove_duplicates f).rows.Nodup :=
  (dedupRows_nodup [] f.rows).1

end TelcoDataCleaner

/-! ### Idempotence of the character strip -/

theorem dropWhile_dropWhile (p : α → Bool) (l : List α) :
    (l.dropWhile p).dropWhile p = l.dropWhile p := by
  induction l with
  | nil => rfl
  | cons x xs ih =>
      by_cases hx : p x
      · simp [List.dropWhile_cons, hx, ih]
      · simp [List.dropWhile_cons, hx]

theorem dropWhile_self_head (p : α → Bool) (l : List α)
    (h : l.dropWhile p = l) : ∀ x ∈ l.head?, p x = false := by
  cases l with
  | nil => intro x hx; cases hx
  | cons a t =>
      have hpa : p a = false := by
        by_cases hp : p a
        · rw [List.dropWhile_cons, if_pos hp] at h
          have hlen1 := congrArg List.length h
          have hlen := (List.dropWhile_sublist p (l := t)).length_le
          simp at hlen1
          omega
        · simpa using hp
      intro x hx
      simp only [List.head?_cons, Option.mem_def, Option.some.injEq] at hx
      subst hx
      exact hpa

/-- The left strip of a right-stripped, already left-stripped list is a
no-op. -/
theorem dropWhile_rtrim (p : α → Bool) (m : List α)
    (h : m.dropWhile p = m) :
    ((m.reverse.dropWhile p).reverse).dropWhile p =
      (m.reverse.dropWhile p).reverse := by
  cases m with
  | nil => simp
  | cons a t =>
      have hpa : p a = false := dropWhile_self_head p (a :: t) h a (by simp)
      have hrev : (a :: t).reverse = t.reverse ++ [a] := by simp
      rw [hrev, List.dropWhile_append]
      by_cases he : (t.reverse.dropWhile p).isEmpty
      · rw [if_pos he]
        simp [List.dropWhile_cons, hpa]
      · rw [if_neg he]
        rw [List.reverse_append]
        simp [List.dropWhile_cons, hpa]

/-- `trimCharList` is idempotent. -/
theorem trimCharList_trimCharList (l : List Char) :
    trimCharList (trimCharList l) = trimCharList l := by
  unfold trimCharList rtrimList
  have hA : (l.dropWhile isSpaceChar).dropWhile isSpaceChar =
      l.dropWhile isSpaceChar := dropWhile_dropWhile isSpaceChar l
  set A := l.dropWhile isSpaceChar with hAdef
  set B := (A.reverse.dropWhile isSpaceChar).reverse with hBdef
  have hB : B.dropWhile isSpaceChar = B := by
    rw [hBdef]
    exact dropWhile_rtrim isSpaceChar A hA
  rw [hB, hBdef]
  rw [List.reverse_reverse, dropWhile_dropWhile]

/-- `pyStrip` is idempotent. -/
theorem pyStrip_pyStrip (s : String) : pyStrip (pyStrip s) = pyStrip s := by
  unfold pyStrip
  rw [show (String.mk (trimCharList s.data)).data = trimCharList s.data from rfl]
  rw [trimCharList_trimCharList]

/-- Stripping an already-stripped cell changes nothing. -/
theorem stripCell_stripCell (v : Val) :
    stripCell (stripCell v) = stripCell v := by
  unfold stripCell
  rw [show (Val.str (pyStrip v.render)).render = pyStrip v.render from rfl]
  rw [pyStrip_pyStrip]

/-! ### Cleaner invariants -/

namespace TelcoDataCleaner

/-- A column with no numeric cell. -/
def NoNum (vs : List Val) : Prop := ∀ v ∈ vs, ∀ q, v ≠ Val.num q

/-- The state a numeric column is left in by median imputation: a missing
cell can only survive when the column offered no numeric median. -/
def NumInv (vs : List Val) : Prop := vs.any Val.isNa = true → NoNum vs

/-- Every cell is a fixed point of the strip. -/
def StripInv (vs : List Val) : Prop := ∀ v ∈ vs, stripCell v = v

/-- Every cell is a fixed point of the service-category collapse. -/
def ServInv (vs : List Val) : Prop := ∀ v ∈ vs, replaceService v = v

/-- Every cell is numeric. -/
def AllNum (vs : List Val) : Prop := ∀ v ∈ vs, ∃ q, v = Val.num q

/-- Every cell is its own integer cast. -/
def IntInv (vs : List Val) : Prop := ∀ v ∈ vs, toIntCell v = .ok v

theorem medianVal_of_noNum (vs : List Val) (h : NoNum vs) :
    medianVal vs = .na := by
  have hnil : vs.filterMap (fun v =>
      match v with
      | .num q => some q
      | _ => none) = [] := by
    rw [List.filterMap_eq_nil_iff]
    intro v hv
    cases v with
    | na => rfl
    | num q => exact absurd rfl (h _ hv q)
    | str s => rfl
  unfold medianVal
  rw [hnil]
  rfl

theorem stripCell_is_str (v : Val) : ∃ s, stripCell v = .str s :=
  ⟨pyStrip v.render, rfl⟩

theorem replaceService_replaceService (v : Val) :
    replaceService (replaceService v) = replaceService v := by
  unfold replaceService
  by_cases h : v = Val.str "No internet service" ∨ v = Val.str "No phone service"
  · rw [if_pos h]
    norm_num
  · rw [if_neg h, if_neg h]

theorem stripCell_replaceService (v : Val) (h : stripCell v = v) :
    stripCell (replaceService v) = replaceService v := by
  unfold replaceService
  by_cases ho : v = Val.str "No internet service" ∨ v = Val.str "No phone service"
  · rw [if_pos ho]
    rfl
  · rw [if_neg ho]
    exact h

theorem toIntCell_proj (v w : Val) (h : toIntCell v = .ok w) :
    toIntCell w = .ok w := by
  cases v with
  | na => cases h
  | num q =>
      simp only [toIntCell] at h
      cases h
      simp only [toIntCell, Except.ok.injEq, Val.num.injEq]
      push_cast
      norm_num
  | str s =>
      simp only [toIntCell] at h
      cases hk : listToInt? (trimCharList s.data) with
      | none => rw [hk] at h; cases h
      | some k =>
          rw [hk] at h
          cases h
          simp only [toIntCell, Except.ok.injEq, Val.num.injEq]
          push_cast
          norm_num

theorem fillNumericCol_cols (f : Frame) (c : String) :
    (fillNumericCol f c).cols = f.cols := by
  unfold fillNumericCol
  split
  · split
    · exact Frame.mapCol_cols f c _
    · rfl
  · rfl

theorem fillNumericCol_wf (f : Frame) (c : String) (hwf : f.WF) :
    (fillNumericCol f c).WF := by
  unfold fillNumericCol
  split
  · split
    · exact Frame.mapCol_wf f c _ hwf
    · exact hwf
  · exact hwf

theorem fillNumericCol_col_ne (f : Frame) (c c' : String) (hcc : c' ≠ c) :
    (fillNumericCol f c').col c = f.col c := by
  unfold fillNumericCol
  split
  · split
    · exact Frame.col_mapCol_ne f c c' _ hcc
    · rfl
  · rfl

theorem colIdx_none_of_not_mem (f : Frame) (c : String) (hc : c ∉ f.cols) :
    f.colIdx c = none := by
  cases h : f.colIdx c with
  | none => rfl
  | some i => exact absurd ((colIdxAux_isSome_iff c f.cols).mp ⟨i, h⟩) hc

theorem col_eq_nil_of_not_mem (f : Frame) (c : String) (hc : c ∉ f.cols) :
    f.col c = [] :=
  Frame.col_none f c (colIdx_none_of_not_mem f c hc)

theorem medianVal_num_of_num (vs : List Val) (w : Val) (q : ℚ)
    (hw : w ∈ vs) (hq : w = .num q) : ∃ m, medianVal vs = .num m := by
  have hmem : q ∈ vs.filterMap (fun v =>
      match v with
      | Val.num q => some q
      | _ => none) := by
    apply List.mem_filterMap.mpr
    exact ⟨w, hw, by rw [hq]⟩
  simp only [medianVal]
  split
  · rename_i hlen
    exfalso
    rw [List.length_insertionSort] at hlen
    rw [List.length_eq_zero.mp hlen] at hmem
    cases hmem
  · split
    · exact ⟨_, rfl⟩
    · exact ⟨_, rfl⟩

theorem fillNumericCol_post (f : Frame) (c : String) (hwf : f.WF) :
    NumInv ((fillNumericCol f c).col c) := by
  unfold fillNumericCol
  by_cases hc : c ∈ f.cols
  · rw [if_pos hc]
    by_cases hna : (f.col c).any Val.isNa
    · rw [if_pos hna]
      by_cases hnn : NoNum (f.col c)
      · have hmed : medianVal (f.col c) = .na := medianVal_of_noNum _ hnn
        rw [hmed]
        have hid : f.mapCol c (fun v => if v.isNa then Val.na else v) = f := by
          apply Frame.mapCol_id
          intro v hv
          cases v <;> simp [Val.isNa]
        rw [hid]
        intro _
        exact hnn
      · unfold NoNum at hnn
        push_neg at hnn
        obtain ⟨w0, hw0, q0, hq0⟩ := hnn
        obtain ⟨m, hmed⟩ := medianVal_num_of_num (f.col c) w0 q0 hw0 hq0
        rw [hmed, Frame.col_mapCol_self f c _ hwf hc]
        intro hany
        exfalso
        rcases List.any_eq_true.mp hany with ⟨w, hw, hwna⟩
        rcases List.mem_map.mp hw with ⟨v, hv, rfl⟩
        by_cases hvna : v.isNa
        · rw [if_pos hvna] at hwna
          simp [Val.isNa] at hwna
        · rw [if_neg hvna] at hwna
          exact hvna hwna
    · rw [if_neg hna]
      intro hany
      exact absurd hany hna
  · rw [if_neg hc]
    intro hany
    rw [col_eq_nil_of_not_mem f c hc] at hany
    cases hany

/-- `fillNumericCol` leaves a column satisfying its own invariant alone. -/
theorem fillNumericCol_id (f : Frame) (c : String)
    (h : NumInv (f.col c)) : fillNumericCol f c = f := by
  unfold fillNumericCol
  by_cases hc : c ∈ f.cols
  · rw [if_pos hc]
    by_cases hna : (f.col c).any Val.isNa
    · rw [if_pos hna]
      have hmed : medianVal (f.col c) = .na := medianVal_of_noNum _ (h hna)
      rw [hmed]
      apply Frame.mapCol_id
      intro v hv
      cases v <;> simp [Val.isNa]
    · rw [if_neg hna]
  · rw [if_neg hc]

theorem fillCategoricalCol_ok_props (f f' : Frame) (c : String)
    (h : fillCategoricalCol f c = .ok f') :
    f'.cols = f.cols ∧ (f.WF → f'.WF) ∧
    ∀ c', c' ≠ c → f'.col c' = f.col c' := by
  unfold fillCategoricalCol at h
  by_cases hc : c ∈ f.cols
  · rw [if_pos hc] at h
    by_cases hna : (f.col c).any Val.isNa
    · rw [if_pos hna] at h
      cases hm : modeVal (f.col c) with
      | error e =>
          rw [hm] at h
          cases h
      | ok m =>
          rw [hm] at h
          have h2 : Except.ok (f.mapCol c fun v => if v.isNa = true then m else v) =
              Except.ok f' := h
          cases h2
          exact ⟨Frame.mapCol_cols f c _,
            fun hwf => Frame.mapCol_wf f c _ hwf,
            fun c' hcc => Frame.col_mapCol_ne f c' c _ hcc.symm⟩
    · rw [if_neg hna] at h
      cases h
      exact ⟨rfl, fun hwf => hwf, fun _ _ => rfl⟩
  · rw [if_neg hc] at h
    cases h
    exact ⟨rfl, fun hwf => hwf, fun _ _ => rfl⟩

theorem catFold_ok_props (cs : List String) (f g : Frame)
    (h : cs.foldlM fillCategoricalCol f = .ok g) :
    g.cols = f.cols ∧ (f.WF → g.WF) ∧
    ∀ c, c ∉ cs → g.col c = f.col c := by
  induction cs generalizing f with
  | nil =>
      simp only [List.foldlM_nil] at h
      cases h
      exact ⟨rfl, fun hwf => hwf, fun _ _ => rfl⟩
  | cons c0 rest ih =>
      rw [List.foldlM_cons] at h
      cases hstep : fillCategoricalCol f c0 with
      | error e => rw [hstep] at h; cases h
      | ok f1 =>
          rw [hstep] at h
          have h2 : rest.foldlM fillCategoricalCol f1 = .ok g := h
          obtain ⟨hcols1, hwf1, hcol1⟩ := fillCategoricalCol_ok_props f f1 c0 hstep
          obtain ⟨hcols2, hwf2, hcol2⟩ := ih f1 h2
          refine ⟨hcols2.trans hcols1, fun hwf => hwf2 (hwf1 hwf), ?_⟩
          intro c hc
          have hc0 : c ≠ c0 := fun he => hc (he ▸ List.mem_cons_self c0 rest)
          have hcr : c ∉ rest := fun hm => hc (List.mem_cons_of_mem c0 hm)
          rw [hcol2 c hcr, hcol1 c hc0]

theorem fillCategoricalCol_id (f : Frame) (c : String)
    (h : ∀ v ∈ f.col c, v.isNa = false) : fillCategoricalCol f c = .ok f := by
  unfold fillCategoricalCol
  by_cases hc : c ∈ f.cols
  · rw [if_pos hc]
    have hna : ¬(f.col c).any Val.isNa = true := by
      intro hany
      rcases List.any_eq_true.mp hany with ⟨v, hv, hvna⟩
      rw [h v hv] at hvna
      cases hvna
    rw [if_neg hna]
  · rw [if_neg hc]

theorem foldlM_ok_id (step : Frame → String → Except String Frame)
    (cs : List String) (f : Frame) (h : ∀ c ∈ cs, step f c = .ok f) :
    cs.foldlM step f = .ok f := by
  induction cs with
  | nil => rfl
  | cons c0 rest ih =>
      rw [List.foldlM_cons, h c0 (List.mem_cons_self c0 rest)]
      exact ih (fun c hc => h c (List.mem_cons_of_mem c0 hc))

theorem foldl_mapCol_id (k : Val → Val) (cs : List String) (f : Frame)
    (h : ∀ c ∈ cs, f.mapCol c k = f) :
    cs.foldl (fun acc c => acc.mapCol c k) f = f := by
  induction cs with
  | nil => rfl
  | cons c0 rest ih =>
      rw [List.foldl_cons, h c0 (List.mem_cons_self c0 rest)]
      exact ih (fun c hc => h c (List.mem_cons_of_mem c0 hc))

theorem Frame.mapCol_not_mem (f : Frame) (c : String) (k : Val → Val)
    (hc : c ∉ f.cols) : f.mapCol c k = f := by
  unfold Frame.mapCol
  rw [colIdx_none_of_not_mem f c hc]

theorem foldl_mapCol_cols (k : Val → Val) (cs : List String) (f : Frame) :
    (cs.foldl (fun acc c => acc.mapCol c k) f).cols = f.cols := by
  induction cs generalizing f with
  | nil => rfl
  | cons c0 rest ih =>
      rw [List.foldl_cons, ih]
      exact Frame.mapCol_cols f c0 k

theorem foldl_mapCol_wf (k : Val → Val) (cs : List String) (f : Frame)
    (hwf : f.WF) : (cs.foldl (fun acc c => acc.mapCol c k) f).WF := by
  induction cs generalizing f with
  | nil => exact hwf
  | cons c0 rest ih =>
      rw [List.foldl_cons]
      exact ih _ (Frame.mapCol_wf f c0 k hwf)

theorem foldl_mapCol_col_ne (k : Val → Val) (cs : List String) (f : Frame)
    (c : String) (hc : c ∉ cs) :
    (cs.foldl (fun acc c => acc.mapCol c k) f).col c = f.col c := by
  induction cs generalizing f with
  | nil => rfl
  | cons c0 rest ih =>
      have hc0 : c ≠ c0 := fun he => hc (he ▸ List.mem_cons_self c0 rest)
      have hcr : c ∉ rest := fun hm => hc (List.mem_cons_of_mem c0 hm)
      rw [List.foldl_cons, ih _ hcr]
      exact Frame.col_mapCol_ne f c c0 k (Ne.symm hc0)

/-- Cells of any column keep a property preserved by the fold's cell map. -/
theorem foldl_mapCol_pres (k : Val → Val) (P : Val → Prop)
    (hk : ∀ v, P v → P (k v)) (cs : List String) (f : Frame) (c : String)
    (hwf : f.WF) (hP : ∀ v ∈ f.col c, P v) :
    ∀ v ∈ (cs.foldl (fun acc c => acc.mapCol c k) f).col c, P v := by
  induction cs generalizing f with
  | nil => exact hP
  | cons c0 rest ih =>
      rw [List.foldl_cons]
      refine ih _ (Frame.mapCol_wf f c0 k hwf) ?_
      by_cases hcc : c = c0
      · subst hcc
        by_cases hmem : c ∈ f.cols
        · rw [Frame.col_mapCol_self f c k hwf hmem]
          intro v hv
          rcases List.mem_map.mp hv with ⟨u, hu, rfl⟩
          exact hk u (hP u hu)
        · rw [Frame.mapCol_not_mem f c k hmem]
          exact hP
      · rw [Frame.col_mapCol_ne f c c0 k (Ne.symm hcc)]
        exact hP

/-- Cells of every folded-over column end up in the image of the fold's
cell map, hence satisfy any property of its outputs. -/
theorem foldl_mapCol_post (k : Val → Val) (P : Val → Prop)
    (hout : ∀ v, P (k v)) (cs : List String) (f : Frame)
    (hwf : f.WF) :
    ∀ c ∈ cs, ∀ v ∈ (cs.foldl (fun acc c => acc.mapCol c k) f).col c, P v := by
  induction cs generalizing f with
  | nil => intro c hc; cases hc
  | cons c0 rest ih =>
      intro c hc
      rw [List.foldl_cons]
      by_cases hcr : c ∈ rest
      · exact ih _ (Frame.mapCol_wf f c0 k hwf) c hcr
      · have hcc : c = c0 := by
          rcases List.mem_cons.mp hc with h | h
          · exact h
          · exact absurd h hcr
        subst hcc
        rw [foldl_mapCol_col_ne k rest _ c hcr]
        by_cases hmem : c ∈ f.cols
        · rw [Frame.col_mapCol_self f c k hwf hmem]
          intro v hv
          rcases List.mem_map.mp hv with ⟨u, _, rfl⟩
          exact hout u
        · rw [Frame.mapCol_not_mem f c k hmem, col_eq_nil_of_not_mem f c hmem]
          intro v hv
          cases hv

theorem toNumericCoerce_cases (v : Val) :
    toNumericCoerce v = .na ∨ ∃ q, toNumericCoerce v = .num q := by
  cases v with
  | na => exact Or.inl rfl
  | num q => exact Or.inr ⟨q, rfl⟩
  | str s =>
      cases hp : parseNumString s with
      | none =>
          left
          show (match parseNumString s with
            | some q => Val.num q
            | none => Val.na) = Val.na
          rw [hp]
      | some q =>
          right
          refine ⟨q, ?_⟩
          show (match parseNumString s with
            | some q => Val.num q
            | none => Val.na) = Val.num q
          rw [hp]

theorem convert_ok_props (f g : Frame) (hwf : f.WF)
    (h : convert_data_types f = .ok g) :
    g.cols = f.cols ∧ g.WF ∧
    (∀ c, c ≠ "TotalCharges" → c ≠ "SeniorCitizen" → g.col c = f.col c) ∧
    ("TotalCharges" ∈ f.cols →
      g.col "TotalCharges" =
        ((f.col "TotalCharges").map toNumericCoerce).map
          (fun v => if v.isNa then Val.num 0 else v)) ∧
    ("SeniorCitizen" ∈ f.cols → IntInv (g.col "SeniorCitizen")) := by
  unfold convert_data_types convertSenior at h
  by_cases hTC : "TotalCharges" ∈ f.cols
  · rw [if_pos hTC] at h
    have hcols1 : ((f.mapCol "TotalCharges" toNumericCoerce).mapCol "TotalCharges"
        (fun v => if v.isNa then Val.num 0 else v)).cols = f.cols := by
      rw [Frame.mapCol_cols, Frame.mapCol_cols]
    have hwf1 : ((f.mapCol "TotalCharges" toNumericCoerce).mapCol "TotalCharges"
        (fun v => if v.isNa then Val.num 0 else v)).WF :=
      Frame.mapCol_wf _ _ _ (Frame.mapCol_wf f _ _ hwf)
    have hcolTC : ((f.mapCol "TotalCharges" toNumericCoerce).mapCol "TotalCharges"
        (fun v => if v.isNa then Val.num 0 else v)).col "TotalCharges" =
        ((f.col "TotalCharges").map toNumericCoerce).map
          (fun v => if v.isNa then Val.num 0 else v) := by
      rw [Frame.col_mapCol_self _ _ _ (Frame.mapCol_wf f _ _ hwf)
        (by rw [Frame.mapCol_cols]; exact hTC)]
      rw [Frame.col_mapCol_self f _ _ hwf hTC]
    have hcolne1 : ∀ c, c ≠ "TotalCharges" →
        ((f.mapCol "TotalCharges" toNumericCoerce).mapCol "TotalCharges"
          (fun v => if v.isNa then Val.num 0 else v)).col c = f.col c := by
      intro c hc
      rw [Frame.col_mapCol_ne _ _ _ _ (Ne.symm hc),
        Frame.col_mapCol_ne _ _ _ _ (Ne.symm hc)]
    rw [hcols1] at h
    by_cases hSC : "SeniorCitizen" ∈ f.cols
    · rw [if_pos hSC] at h
      refine ⟨(Frame.mapColE_ok_cols _ _ _ _ h).trans hcols1,
        Frame.mapColE_ok_wf _ _ _ _ hwf1 h, ?_, ?_, ?_⟩
      · intro c hcTC hcSC
        rw [Frame.mapColE_ok_col_ne _ c "SeniorCitizen" toIntCell g
          (Ne.symm hcSC) h]
        exact hcolne1 c hcTC
      · intro _
        rw [Frame.mapColE_ok_col_ne _ "TotalCharges" "SeniorCitizen" toIntCell g
          (by decide) h]
        exact hcolTC
      · intro _
        have hfa := Frame.mapColE_ok_col_self _ "SeniorCitizen" toIntCell g
          hwf1 (by rw [hcols1]; exact hSC) h
        intro v' hv'
        obtain ⟨v, _, hrel⟩ := forall₂_mem_right hfa v' hv'
        exact toIntCell_proj v v' hrel
    · rw [if_neg hSC] at h
      cases h
      exact ⟨hcols1, hwf1, fun c hcTC _ => hcolne1 c hcTC,
        fun _ => hcolTC, fun hm => absurd hm hSC⟩
  · rw [if_neg hTC] at h
    by_cases hSC : "SeniorCitizen" ∈ f.cols
    · rw [if_pos hSC] at h
      refine ⟨Frame.mapColE_ok_cols _ _ _ _ h,
        Frame.mapColE_ok_wf _ _ _ _ hwf h, ?_, ?_, ?_⟩
      · intro c _ hcSC
        exact Frame.mapColE_ok_col_ne _ c "SeniorCitizen" toIntCell g
          (Ne.symm hcSC) h
      · intro hm
        exact absurd hm hTC
      · intro _
        have hfa := Frame.mapColE_ok_col_self _ "SeniorCitizen" toIntCell g
          hwf hSC h
        intro v' hv'
        obtain ⟨v, _, hrel⟩ := forall₂_mem_right hfa v' hv'
        exact toIntCell_proj v v' hrel
    · rw [if_neg hSC] at h
      cases h
      exact ⟨rfl, hwf, fun _ _ _ => rfl,
        fun hm => absurd hm hTC, fun hm => absurd hm hSC⟩

theorem convert_id (f : Frame)
    (hTCinv : ∀ v ∈ f.col "TotalCharges", ∃ q, v = Val.num q)
    (hSCinv : ∀ v ∈ f.col "SeniorCitizen", toIntCell v = .ok v) :
    convert_data_types f = .ok f := by
  unfold convert_data_types convertSenior
  have hTCstep : (if "TotalCharges" ∈ f.cols then
      ((f.mapCol "TotalCharges" toNumericCoerce).mapCol "TotalCharges"
        (fun v => if v.isNa then Val.num 0 else v)) else f) = f := by
    by_cases hTC : "TotalCharges" ∈ f.cols
    · rw [if_pos hTC]
      have h1 : f.mapCol "TotalCharges" toNumericCoerce = f := by
        apply Frame.mapCol_id
        intro v hv
        obtain ⟨q, rfl⟩ := hTCinv v hv
        rfl
      rw [h1]
      apply Frame.mapCol_id
      intro v hv
      obtain ⟨q, rfl⟩ := hTCinv v hv
      simp [Val.isNa]
    · rw [if_neg hTC]
  rw [hTCstep]
  by_cases hSC : "SeniorCitizen" ∈ f.cols
  · rw [if_pos hSC]
    exact Frame.mapColE_id f _ toIntCell hSCinv
  · rw [if_neg hSC]

/-- A column of numbers only satisfies the median-fill invariant
vacuously: it has no missing cell. -/
theorem numInv_of_allNum (vs : List Val) (h : AllNum vs) : NumInv vs := by
  intro hany
  exfalso
  rcases List.any_eq_true.mp hany with ⟨v, hv, hna⟩
  obtain ⟨q, rfl⟩ := h v hv
  simp [Val.isNa] at hna

/-- The median-fill invariant passes to any selection of the cells. -/
theorem numInv_subset (ws vs : List Val) (hsub : ∀ v ∈ ws, v ∈ vs)
    (h : NumInv vs) : NumInv ws := by
  intro hany
  rcases List.any_eq_true.mp hany with ⟨v, hv, hna⟩
  have hvs : vs.any Val.isNa = true :=
    List.any_eq_true.mpr ⟨v, hsub v hv, hna⟩
  intro w hw q
  exact h hvs w (hsub w hw) q

/-- The service-category collapse keeps a cell stripped and a string. -/
theorem replaceService_pres_strip_str (v : Val)
    (h : stripCell v = v ∧ ∃ s, v = Val.str s) :
    stripCell (replaceService v) = replaceService v ∧
      ∃ s, replaceService v = Val.str s := by
  unfold replaceService
  by_cases ho : v = Val.str "No internet service" ∨ v = Val.str "No phone service"
  · rw [if_pos ho]
    exact ⟨by decide, "No", rfl⟩
  · rw [if_neg ho]
    exact h

/-- A fold whose every step fixes the accumulator is the identity. -/
theorem foldl_step_id (step : Frame → String → Frame) (cs : List String)
    (f : Frame) (h : ∀ c ∈ cs, step f c = f) : cs.foldl step f = f := by
  induction cs with
  | nil => rfl
  | cons c0 rest ih =>
      rw [List.foldl_cons, h c0 (List.mem_cons_self c0 rest)]
      exact ih (fun c hc => h c (List.mem_cons_of_mem c0 hc))

/-- Shape of the numeric median-fill pass: columns and rectangularity are
kept, and the two untouched-thereafter numeric columns come out
satisfying the median-fill invariant. -/
theorem numFold_props (f : Frame) (hwf : f.WF) :
    (numeric_columns.foldl fillNumericCol f).cols = f.cols ∧
    (numeric_columns.foldl fillNumericCol f).WF ∧
    NumInv ((numeric_columns.foldl fillNumericCol f).col "tenure") ∧
    NumInv ((numeric_columns.foldl fillNumericCol f).col "MonthlyCharges") := by
  have he : numeric_columns.foldl fillNumericCol f =
      fillNumericCol (fillNumericCol (fillNumericCol f "tenure")
        "MonthlyCharges") "TotalCharges" := rfl
  rw [he]
  refine ⟨?_, ?_, ?_, ?_⟩
  · rw [fillNumericCol_cols, fillNumericCol_cols, fillNumericCol_cols]
  · exact fillNumericCol_wf _ _ (fillNumericCol_wf _ _ (fillNumericCol_wf _ _ hwf))
  · rw [fillNumericCol_col_ne _ _ _ (by decide), fillNumericCol_col_ne _ _ _ (by decide)]
    exact fillNumericCol_post f "tenure" hwf
  · rw [fillNumericCol_col_ne _ _ _ (by decide)]
    exact fillNumericCol_post _ "MonthlyCharges" (fillNumericCol_wf _ _ hwf)

/-- Shape of the whole missing-value pass: columns and rectangularity are
kept, and `tenure` and `MonthlyCharges` satisfy the median-fill
invariant afterwards. -/
theorem handle_missing_props (f g : Frame) (hwf : f.WF)
    (h : handle_missing_values f = .ok g) :
    g.cols = f.cols ∧ g.WF ∧
    NumInv (g.col "tenure") ∧ NumInv (g.col "MonthlyCharges") := by
  unfold handle_missing_values at h
  obtain ⟨hcols, hwfi, hcolne⟩ := catFold_ok_props _ _ _ h
  obtain ⟨hNc, hNwf, hNt, hNm⟩ := numFold_props f hwf
  refine ⟨hcols.trans hNc, hwfi hNwf, ?_, ?_⟩
  · rw [hcolne _ (by decide)]
    exact hNt
  · rw [hcolne _ (by decide)]
    exact hNm

/-- Shape of the normalization pass: columns and rectangularity are kept,
columns in neither list are untouched, stripped columns come out
strip-fixed strings, and service columns come out collapse-fixed. -/
theorem handle_inconsistent_props (f1 : Frame) (hwf : f1.WF) :
    (handle_inconsistent_values f1).cols = f1.cols ∧
    (handle_inconsistent_values f1).WF ∧
    (∀ c, c ∉ categorical_strip_columns → c ∉ service_columns →
      (handle_inconsistent_values f1).col c = f1.col c) ∧
    (∀ c ∈ categorical_strip_columns, ∀ v ∈ (handle_inconsistent_values f1).col c,
      stripCell v = v ∧ ∃ s, v = Val.str s) ∧
    (∀ c ∈ service_columns, ∀ v ∈ (handle_inconsistent_values f1).col c,
      replaceService v = v) := by
  unfold handle_inconsistent_values
  have hSwf : (categorical_strip_columns.foldl
      (fun acc c => acc.mapCol c stripCell) f1).WF :=
    foldl_mapCol_wf _ _ _ hwf
  refine ⟨?_, ?_, ?_, ?_, ?_⟩
  · rw [foldl_mapCol_cols, foldl_mapCol_cols]
  · exact foldl_mapCol_wf _ _ _ hSwf
  · intro c hcs hcv
    rw [foldl_mapCol_col_ne _ _ _ _ hcv, foldl_mapCol_col_ne _ _ _ _ hcs]
  · intro c hc
    exact foldl_mapCol_pres replaceService _ replaceService_pres_strip_str
      service_columns _ c hSwf
      (foldl_mapCol_post stripCell _
        (fun v => ⟨stripCell_stripCell v, stripCell_is_str v⟩)
        categorical_strip_columns f1 hwf c hc)
  · intro c hc
    exact foldl_mapCol_post replaceService _ replaceService_replaceService
      service_columns _ hSwf c hc

/-- A successful cleaning run decomposes into its four stages. -/
theorem clean_data_ok_elim (f E : Frame) (h : clean_data f = .ok E) :
    ∃ f1 f3, handle_missing_values f = .ok f1 ∧
      convert_data_types (handle_inconsistent_values f1) = .ok f3 ∧
      E = remove_duplicates f3 := by
  unfold clean_data at h
  cases h1 : handle_missing_values f with
  | error e =>
      rw [h1, exceptStep_error] at h
      cases h
  | ok f1 =>
      rw [h1, exceptStep_ok] at h
      unfold convertStage at h
      cases h3 : convert_data_types (handle_inconsistent_values f1) with
      | error e =>
          rw [h3, exceptStep_error] at h
          cases h
      | ok f3 =>
          rw [h3, exceptStep_ok] at h
          have h'' : Except.ok (remove_duplicates f3) = Except.ok E := h
          cases h''
          exact ⟨f1, f3, rfl, h3, rfl⟩

/-- Conversely, successful stages assemble into a cleaning run. -/
theorem clean_data_intro (f f1 f3 : Frame)
    (h1 : handle_missing_values f = .ok f1)
    (h3 : convert_data_types (handle_inconsistent_values f1) = .ok f3) :
    clean_data f = .ok (remove_duplicates f3) := by
  unfold clean_data
  rw [h1, exceptStep_ok]
  unfold convertStage
  rw [h3, exceptStep_ok]

/-- The state every column of a cleaned frame is left in: the numeric
columns cannot trigger another median fill, `TotalCharges` is entirely
numeric, the stripped columns are strip-fixed strings (hence not
missing), the service columns are collapse-fixed, `SeniorCitizen` is
fixed by the integer cast, and the rows carry no duplicates. -/
def Cleaned (E : Frame) : Prop :=
  NumInv (E.col "tenure") ∧
  NumInv (E.col "MonthlyCharges") ∧
  AllNum (E.col "TotalCharges") ∧
  (∀ c ∈ categorical_strip_columns, ∀ v ∈ E.col c,
    stripCell v = v ∧ ∃ s, v = Val.str s) ∧
  (∀ c ∈ service_columns, ∀ v ∈ E.col c, replaceService v = v) ∧
  IntInv (E.col "SeniorCitizen") ∧
  E.rows.Nodup

/-- Every frame a successful cleaning run returns is `Cleaned` (and
rectangular): the first pass leaves nothing for a second pass to do. -/
theorem clean_establishes (f E : Frame) (hwf : f.WF)
    (h : clean_data f = .ok E) : Cleaned E ∧ E.WF := by
  obtain ⟨f1, f3, h1, h3, hE⟩ := clean_data_ok_elim f E h
  obtain ⟨hc1, hwf1, hT1, hM1⟩ := handle_missing_props f f1 hwf h1
  obtain ⟨hc2, hwf2, hne2, hStr2, hSrv2⟩ := handle_inconsistent_props f1 hwf1
  obtain ⟨hc3, hwf3, hne3, hTC3, hSC3⟩ := convert_ok_props _ f3 hwf2 h3
  have hT3 : NumInv (f3.col "tenure") := by
    rw [hne3 _ (by decide) (by decide), hne2 _ (by decide) (by decide)]
    exact hT1
  have hM3 : NumInv (f3.col "MonthlyCharges") := by
    rw [hne3 _ (by decide) (by decide), hne2 _ (by decide) (by decide)]
    exact hM1
  have hnc : ∀ c ∈ categorical_strip_columns,
      c ≠ "TotalCharges" ∧ c ≠ "SeniorCitizen" := by decide
  have hnv : ∀ c ∈ service_columns,
      c ≠ "TotalCharges" ∧ c ≠ "SeniorCitizen" := by decide
  have hStr3 : ∀ c ∈ categorical_strip_columns, ∀ v ∈ f3.col c,
      stripCell v = v ∧ ∃ s, v = Val.str s := by
    intro c hc
    rw [hne3 c (hnc c hc).1 (hnc c hc).2]
    exact hStr2 c hc
  have hSrv3 : ∀ c ∈ service_columns, ∀ v ∈ f3.col c,
      replaceService v = v := by
    intro c hc
    rw [hne3 c (hnv c hc).1 (hnv c hc).2]
    exact hSrv2 c hc
  have hTCnum : AllNum (f3.col "TotalCharges") := by
    by_cases hTCm : "TotalCharges" ∈ (handle_inconsistent_values f1).cols
    · rw [hTC3 hTCm]
      intro v hv
      rcases List.mem_map.mp hv with ⟨u, hu, rfl⟩
      rcases List.mem_map.mp hu with ⟨w, hw, rfl⟩
      rcases toNumericCoerce_cases w with hna | ⟨q, hq⟩
      · rw [hna]
        exact ⟨0, rfl⟩
      · rw [hq]
        exact ⟨q, rfl⟩
    · rw [col_eq_nil_of_not_mem f3 _ (by rw [hc3]; exact hTCm)]
      intro v hv
      cases hv
  have hSCint : IntInv (f3.col "SeniorCitizen") := by
    by_cases hSCm : "SeniorCitizen" ∈ (handle_inconsistent_values f1).cols
    · exact hSC3 hSCm
    · rw [col_eq_nil_of_not_mem f3 _ (by rw [hc3]; exact hSCm)]
      intro v hv
      cases hv
  subst hE
  have hsub : ∀ c, ∀ v ∈ (remove_duplicates f3).col c, v ∈ f3.col c :=
    fun c => remove_duplicates_col_subset f3 c
  refine ⟨⟨numInv_subset _ _ (hsub _) hT3, numInv_subset _ _ (hsub _) hM3,
    fun v hv => hTCnum v (hsub _ v hv),
    fun c hc v hv => hStr3 c hc v (hsub _ v hv),
    fun c hc v hv => hSrv3 c hc v (hsub _ v hv),
    fun v hv => hSCint v (hsub _ v hv),
    remove_duplicates_nodup f3⟩, remove_duplicates_wf f3 hwf3⟩

/-- Cleaning a `Cleaned` frame changes nothing: every stage is the
identity and no error is raised. -/
theorem cleaned_clean (E : Frame) (hcl : Cleaned E) :
    clean_data E = .ok E ∧ handle_missing_values E = .ok E ∧
    handle_inconsistent_values E = E ∧ remove_duplicates E = E := by
  obtain ⟨hT, hM, hTC, hStrip, hServ, hSC, hnd⟩ := hcl
  have hnum : numeric_columns.foldl fillNumericCol E = E := by
    apply foldl_step_id
    intro c hc
    simp only [numeric_columns, List.mem_cons, List.not_mem_nil, or_false] at hc
    rcases hc with rfl | rfl | rfl
    · exact fillNumericCol_id E _ hT
    · exact fillNumericCol_id E _ hM
    · exact fillNumericCol_id E _ (numInv_of_allNum _ hTC)
  have hmv : handle_missing_values E = .ok E := by
    unfold handle_missing_values
    rw [hnum]
    apply foldlM_ok_id
    intro c hc
    apply fillCategoricalCol_id
    intro v hv
    obtain ⟨_, s, rfl⟩ :=
      hStrip c (List.mem_append_left _ hc) v hv
    rfl
  have hic : handle_inconsistent_values E = E := by
    unfold handle_inconsistent_values
    have hs : categorical_strip_columns.foldl
        (fun acc c => acc.mapCol c stripCell) E = E := by
      apply foldl_mapCol_id
      intro c hc
      apply Frame.mapCol_id
      intro v hv
      exact (hStrip c hc v hv).1
    rw [hs]
    apply foldl_mapCol_id
    intro c hc
    apply Frame.mapCol_id
    intro v hv
    exact hServ c hc v hv
  have hcv : convert_data_types E = .ok E :=
    convert_id E hTC hSC
  have hrd : remove_duplicates E = E := remove_duplicates_id E hnd
  refine ⟨?_, hmv, hic, hrd⟩
  have := clean_data_intro E E E hmv (by rw [hic]; exact hcv)
  rw [hrd] at this
  exact this

/-- C6: cleaning is idempotent — whenever `clean_data` returns a frame
`E`, running `clean_data` on `E` returns `E` itself, and on that second
pass the missing-value imputation, the value normalization and the
duplicate removal each leave `E` untouched. -/
theorem C6_clean_idempotent (f E : Frame) (hwf : f.WF)
    (h : clean_data f = .ok E) :
    clean_data E = .ok E ∧ handle_missing_values E = .ok E ∧
    handle_inconsistent_values E = E ∧ remove_duplicates E = E :=
  cleaned_clean E (clean_establishes f E hwf h).1

/-- A raw frame whose target column needs stripping and whose rows carry
duplicates. -/
def demoCleanF : Frame :=
  ⟨["Churn"], [[.str " No "], [.str "No"], [.str "No"]]⟩

/-- What cleaning `demoCleanF` returns. -/
def demoCleanE : Frame := ⟨["Churn"], [[.str "No"]]⟩

theorem C6_clean_idempotent_witness :
    (demoCleanF.WF ∧ clean_data demoCleanF = .ok demoCleanE) ∧
    (clean_data demoCleanE = .ok demoCleanE ∧
     handle_missing_values demoCleanE = .ok demoCleanE ∧
     handle_inconsistent_values demoCleanE = demoCleanE ∧
     remove_duplicates demoCleanE = demoCleanE) :=
  ⟨⟨fun r hr => by fin_cases hr <;> rfl, by rfl⟩,
   C6_clean_idempotent demoCleanF demoCleanE
     (fun r hr => by fin_cases hr <;> rfl) (by rfl)⟩

/-- C9: during cleaning the `TotalCharges` column is coerced to numeric
cell by cell, any cell whose string cannot be parsed as a number becomes
`0` rather than staying missing, and after the whole cleaning run the
column holds only numbers — no missing values — whenever the input frame
has the column. -/
theorem C9_total_charges_coerced (f g E : Frame) (hwf : f.WF)
    (hTC : "TotalCharges" ∈ f.cols)
    (hg : convert_data_types f = .ok g)
    (hE : clean_data f = .ok E) :
    g.col "TotalCharges" =
      ((f.col "TotalCharges").map toNumericCoerce).map
        (fun v => if v.isNa then Val.num 0 else v) ∧
    (∀ s : String, parseNumString s = none →
      (if (toNumericCoerce (Val.str s)).isNa then Val.num 0
        else toNumericCoerce (Val.str s)) = Val.num 0) ∧
    ∀ v ∈ E.col "TotalCharges", (∃ q, v = Val.num q) ∧ v.isNa = false := by
  obtain ⟨-, -, -, hmap, -⟩ := convert_ok_props f g hwf hg
  obtain ⟨⟨-, -, hAll, -⟩, -⟩ := clean_establishes f E hwf hE
  refine ⟨hmap hTC, ?_, ?_⟩
  · intro s hs
    have h1 : toNumericCoerce (Val.str s) = Val.na := by
      show (match parseNumString s with
        | some q => Val.num q
        | none => Val.na) = Val.na
      rw [hs]
    rw [h1]
    rfl
  · intro v hv
    obtain ⟨q, rfl⟩ := hAll v hv
    exact ⟨⟨q, rfl⟩, rfl⟩

/-- A one-row frame whose total charge is an unparseable string. -/
def demoTCF : Frame := ⟨["TotalCharges"], [[.str "abc"]]⟩

/-- What converting (and fully cleaning) `demoTCF` returns. -/
def demoTCE : Frame := ⟨["TotalCharges"], [[.num 0]]⟩

theorem C9_total_charges_coerced_witness :
    (demoTCF.WF ∧ "TotalCharges" ∈ demoTCF.cols ∧
      convert_data_types demoTCF = .ok demoTCE ∧
      clean_data demoTCF = .ok demoTCE) ∧
    (demoTCE.col "TotalCharges" =
        ((demoTCF.col "TotalCharges").map toNumericCoerce).map
          (fun v => if v.isNa then Val.num 0 else v) ∧
      (∀ s : String, parseNumString s = none →
        (if (toNumericCoerce (Val.str s)).isNa then Val.num 0
          else toNumericCoerce (Val.str s)) = Val.num 0) ∧
      ∀ v ∈ demoTCE.col "TotalCharges",
        (∃ q, v = Val.num q) ∧ v.isNa = false) :=
  ⟨⟨fun r hr => by fin_cases hr <;> rfl, by decide, by rfl, by rfl⟩,
   C9_total_charges_coerced demoTCF demoTCE demoTCE
     (fun r hr => by fin_cases hr <;> rfl) (by decide) (by rfl) (by rfl)⟩

end TelcoDataCleaner

/-! ### TelcoFeatureEngineer (src/src/data/feature_engineer.py)

The derivation works on value frames; the aliasing aspects (`data.copy()`)
are modelled at store level further below. The scaler divides by the
variance rather than by its square root: the standard deviation is
irrational in general and no claim reads a scaled value — only the
raising/shape behaviour of the step, which is identical. -/

namespace TelcoFeatureEngineer

def categorical_columns : List String :=
  ["gender", "Partner", "Dependents", "PhoneService", "MultipleLines",
   "InternetService", "OnlineSecurity", "OnlineBackup", "DeviceProtection",
   "TechSupport", "StreamingTV", "StreamingMovies", "Contract",
   "PaperlessBilling", "PaymentMethod"]

def numeric_columns : List String := ["tenure", "MonthlyCharges", "TotalCharges"]

/-- The service indicator columns of `_create_derived_features`. -/
def service_columns : List String :=
  ["PhoneService", "InternetService", "OnlineSecurity",
   "OnlineBackup", "DeviceProtection", "TechSupport",
   "StreamingTV", "StreamingMovies"]

/-- `(s != 'No').astype(int)` on one cell (a missing cell compares
unequal, as in pandas). -/
def neNoInd (v : Val) : Val := if v = .str "No" then .num 0 else .num 1

/-- `1` for `true`, `0` for `false` — `.astype(int)` on a boolean. -/
def boolInd (b : Bool) : Val := if b then .num 1 else .num 0

/-- Addition of two indicator/accumulator cells; both operands are
numbers on every reachable call. -/
def valAddNum (a b : Val) : Val :=
  match a, b with
  | .num x, .num y => .num (x + y)
  | _, _ => .na

/-- `x + 1` on a cell: numbers add, missing propagates, a string operand
raises. -/
def valAdd1 : Val → Except String Val
  | .num q => .ok (.num (q + 1))
  | .na => .ok .na
  | .str _ => .error "TypeError: unsupported operand"

/-- Elementwise quotient: missing propagates, a string operand raises;
pandas renders division by zero as `inf`/`nan` rather than raising,
modelled as a missing cell (no claim reads the value). -/
def valDiv : Val → Val → Except String Val
  | .num x, .num y => .ok (if y = 0 then .na else .num (x / y))
  | .na, .num _ => .ok .na
  | .num _, .na => .ok .na
  | .na, .na => .ok .na
  | _, _ => .error "TypeError: unsupported operand"

/-- Elementwise difference: missing propagates, a string operand raises. -/
def valSub : Val → Val → Except String Val
  | .num x, .num y => .ok (.num (x - y))
  | .na, .num _ => .ok .na
  | .num _, .na => .ok .na
  | .na, .na => .ok .na
  | _, _ => .error "TypeError: unsupported operand"

/-- Elementwise application of a fallible binary operation, the first
raise aborting the whole column. -/
def zipWithE (op : Val → Val → Except String Val) :
    List Val → List Val → Except String (List Val)
  | a :: as, b :: bs =>
      match op a b with
      | .error e => .error e
      | .ok v =>
          match zipWithE op as bs with
          | .error e => .error e
          | .ok vs => .ok (v :: vs)
  | _, _ => .ok []

/-- `data['feature_total_services'] = 0`. -/
def totalServicesInit (f : Frame) : Frame :=
  f.setCol "feature_total_services" (f.rows.map (fun _ => Val.num 0))

/-- One `+= (data[col] != 'No').astype(int)` step, guarded on column
presence. -/
def totalServicesStep (acc : Frame) (c : String) : Frame :=
  if c ∈ acc.cols then
    acc.setCol "feature_total_services"
      (List.zipWith valAddNum (acc.col "feature_total_services")
        ((acc.col c).map neNoInd))
  else acc

/-- `feature_has_family`: unguarded reads of `Partner` and `Dependents`. -/
def hasFamilyStep (f : Frame) : Except String Frame :=
  match f.colE "Partner" with
  | .error e => .error e
  | .ok ps =>
      match f.colE "Dependents" with
      | .error e => .error e
      | .ok ds =>
          .ok (f.setCol "feature_has_family"
            (List.zipWith (fun a b =>
              boolInd (a = Val.str "Yes" ∨ b = Val.str "Yes")) ps ds))

/-- `feature_is_senior`: guarded on column presence. -/
def isSeniorStep (f : Frame) : Except String Frame :=
  if "SeniorCitizen" ∈ f.cols then
    .ok (f.setCol "feature_is_senior" (f.col "SeniorCitizen"))
  else .ok f

/-- `feature_long_contract`: unguarded read of `Contract`. -/
def longContractStep (f : Frame) : Except String Frame :=
  match f.colE "Contract" with
  | .error e => .error e
  | .ok cs =>
      .ok (f.setCol "feature_long_contract"
        (cs.map (fun v => boolInd (v ≠ Val.str "Month-to-month"))))

/-- `feature_multiple_lines`: unguarded read of `MultipleLines`. -/
def multipleLinesStep (f : Frame) : Except String Frame :=
  match f.colE "MultipleLines" with
  | .error e => .error e
  | .ok ms =>
      .ok (f.setCol "feature_multiple_lines"
        (ms.map (fun v => boolInd (v = Val.str "Yes"))))

/-- `feature_monthly_per_tenure`: unguarded reads of `MonthlyCharges`
and `tenure`. -/
def monthlyPerTenureStep (f : Frame) : Except String Frame :=
  match f.colE "MonthlyCharges" with
  | .error e => .error e
  | .ok ms =>
      match f.colE "tenure" with
      | .error e => .error e
      | .ok ts =>
          match ts.mapM valAdd1 with
          | .error e => .error e
          | .ok t1 =>
              match zipWithE valDiv ms t1 with
              | .error e => .error e
              | .ok rs => .ok (f.setCol "feature_monthly_per_tenure" rs)

/-- `feature_total_per_tenure`: unguarded reads of `TotalCharges` and
`tenure`. -/
def totalPerTenureStep (f : Frame) : Except String Frame :=
  match f.colE "TotalCharges" with
  | .error e => .error e
  | .ok ms =>
      match f.colE "tenure" with
      | .error e => .error e
      | .ok ts =>
          match ts.mapM valAdd1 with
          | .error e => .error e
          | .ok t1 =>
              match zipWithE valDiv ms t1 with
              | .error e => .error e
              | .ok rs => .ok (f.setCol "feature_total_per_tenure" rs)

/-- `feature_charges_difference`: unguarded reads of `TotalCharges` and
`MonthlyCharges`. -/
def chargesDifferenceStep (f : Frame) : Except String Frame :=
  match f.colE "TotalCharges" with
  | .error e => .error e
  | .ok ts =>
      match f.colE "MonthlyCharges" with
      | .error e => .error e
      | .ok ms =>
          match zipWithE valSub ts ms with
          | .error e => .error e
          | .ok rs => .ok (f.setCol "feature_charges_difference" rs)

/-- `TelcoFeatureEngineer._create_derived_features`. -/
def create_derived_features (f0 : Frame) : Except String Frame :=
  exceptStep chargesDifferenceStep
    (exceptStep totalPerTenureStep
      (exceptStep monthlyPerTenureStep
        (exceptStep multipleLinesStep
          (exceptStep longContractStep
            (exceptStep isSeniorStep
              (hasFamilyStep
                (service_columns.foldl totalServicesStep
                  (totalServicesInit f0))))))))

/-- Lexicographic comparison of character sequences. -/
def charsLe : List Char → List Char → Bool
  | [], _ => true
  | _ :: _, [] => false
  | a :: as, b :: bs => if a = b then charsLe as bs else decide (a < b)

/-- `np.unique`: the distinct values in ascending order. -/
def leClasses (vs : List Val) : List String :=
  ((vs.map Val.render).dedup).insertionSort
    (fun a b => charsLe a.data b.data = true)

/-- The class index of a label. -/
def leIndex : List String → String → Option ℕ
  | [], _ => none
  | c :: rest, s =>
      if c = s then some 0
      else (leIndex rest s).map (fun i => i + 1)

/-- `LabelEncoder().fit_transform(column)`: fit the classes on this very
column and encode each value by its class index (a fresh fit never sees
an unknown label, so the fallback is unreachable). -/
def leFitTransform (vs : List Val) : List Val :=
  vs.map (fun v =>
    match leIndex (leClasses vs) v.render with
    | some i => Val.num i
    | none => Val.na)

/-- `LabelEncoder.transform` against previously fitted classes — what
reusing the fitted label map does: an unseen label raises. -/
def leTransform (cls : List String) (vs : List Val) :
    Except String (List Val) :=
  vs.mapM (fun v =>
    match leIndex cls v.render with
    | some i => .ok (Val.num i)
    | none => .error "ValueError: y contains previously unseen labels")

/-- `TelcoFeatureEngineer._encode_categorical_features`: for every
categorical column present, fit a fresh `LabelEncoder` on the current
values, write the `_encoded` column, and overwrite
`self.label_encoders[col]` with the fresh fit. -/
def encode_categorical_features (f : Frame)
    (encs : List (String × List String)) :
    Frame × List (String × List String) :=
  categorical_columns.foldl
    (fun p c =>
      if c ∈ p.1.cols then
        (p.1.setCol (c ++ "_encoded") (leFitTransform (p.1.col c)),
         dictInsert c (leClasses (p.1.col c)) p.2)
      else p)
    (f, encs)

/-- Numeric dtype of a column: no string cell (missing keeps a column
float-typed in pandas). -/
def colNumericB (vs : List Val) : Bool :=
  vs.all (fun v =>
    match v with
    | .str _ => false
    | _ => true)

/-- Is `p` an initial segment of `s`? -/
def charsStart : List Char → List Char → Bool
  | [], _ => true
  | _ :: _, [] => false
  | a :: as, b :: bs => if a = b then charsStart as bs else false

/-- The columns `_normalize_numeric_features` scales: the original
numeric columns present, then the numeric `feature_` columns. -/
def numericFeatureList (f : Frame) : List String :=
  (numeric_columns.filter (fun c => c ∈ f.cols)) ++
  (f.cols.filter (fun c =>
    charsStart "feature_".data c.data && colNumericB (f.col c)))

/-- `StandardScaler().fit_transform` on one column: raises on an empty,
missing-valued or non-numeric column; otherwise centres on the mean and
scales (see the module note on the variance abstraction; a constant
column keeps scale 1, as in sklearn). -/
def scaleCol (vs : List Val) : Except String (List Val) :=
  match vs.mapM (fun v =>
    match v with
    | Val.num q => some q
    | _ => none) with
  | none => .error "ValueError: input contains missing or non-numeric values"
  | some qs =>
      match qs with
      | [] => .error "ValueError: found array with 0 samples"
      | _ =>
          let n : ℚ := qs.length
          let mean := qs.sum / n
          let varv := (qs.map (fun x => (x - mean) ^ 2)).sum / n
          .ok (qs.map (fun x =>
            Val.num (if varv = 0 then x - mean else (x - mean) / varv)))

/-- Scale each selected column in place, the first raise aborting. -/
def scaleFoldE : List String → Frame → Except String Frame
  | [], f => .ok f
  | c :: rest, f =>
      match scaleCol (f.col c) with
      | .error e => .error e
      | .ok vs => scaleFoldE rest (f.setCol c vs)

/-- `TelcoFeatureEngineer._normalize_numeric_features`: scaling is
skipped entirely when no numeric feature is present. -/
def normalize_numeric_features (f : Frame) : Except String Frame :=
  match numericFeatureList f with
  | [] => .ok f
  | cs => scaleFoldE cs f

/-- Keep exactly the named columns, in frame order. -/
def selectColumns (f : Frame) (keep : List String) : Frame :=
  ⟨f.cols.filter (fun c => c ∈ keep),
   f.rows.map (fun r =>
     ((f.cols.zip r).filter (fun p => p.1 ∈ keep)).map (fun p => p.2))⟩

/-- `TelcoFeatureEngineer._select_final_features`: drop raw categorical
columns (except high-cardinality `PaymentMethod`, put back by the quirk),
`customerID` and `Churn`, then keep only numeric-dtype columns. -/
def select_final_features (f : Frame) : Frame :=
  let drop0 := (categorical_columns.filter (fun c => c ∈ f.cols)) ++
    (if "customerID" ∈ f.cols then ["customerID"] else []) ++
    (if "Churn" ∈ f.cols then ["Churn"] else [])
  let dropped := drop0.filter (fun c => c ≠ "PaymentMethod")
  let f1 := selectColumns f (f.cols.filter (fun c => c ∉ dropped))
  selectColumns f1 (f1.cols.filter (fun c => colNumericB (f1.col c)))

/-- `TelcoFeatureEngineer.engineer_features`: derivation, encoding,
scaling, projection; the encoder state rides along. -/
def engineer_features (f : Frame) (encs : List (String × List String)) :
    Except String (Frame × List (String × List String)) :=
  match create_derived_features f with
  | .error e => .error e
  | .ok f1 =>
      match encode_categorical_features f1 encs with
      | (f2, encs2) =>
          match normalize_numeric_features f2 with
          | .error e => .error e
          | .ok f3 => .ok (select_final_features f3, encs2)

/-- A cell that is a number or missing — the content of a numeric-dtype
pandas column. -/
def numOrNaB (v : Val) : Bool :=
  match v with
  | .str _ => false
  | _ => true

theorem valAdd1_ok (v : Val) (h : numOrNaB v = true) :
    ∃ w, valAdd1 v = .ok w ∧ numOrNaB w = true := by
  cases v with
  | num q => exact ⟨.num (q + 1), rfl, rfl⟩
  | na => exact ⟨.na, rfl, rfl⟩
  | str s => simp [numOrNaB] at h

theorem valDiv_ok (a b : Val) (ha : numOrNaB a = true)
    (hb : numOrNaB b = true) : ∃ w, valDiv a b = .ok w := by
  cases a <;> cases b <;>
    first
      | exact ⟨_, rfl⟩
      | simp [numOrNaB] at ha hb

theorem valSub_ok (a b : Val) (ha : numOrNaB a = true)
    (hb : numOrNaB b = true) : ∃ w, valSub a b = .ok w := by
  cases a <;> cases b <;>
    first
      | exact ⟨_, rfl⟩
      | simp [numOrNaB] at ha hb

theorem mapM_except_ok_of_forall (k : Val → Except String Val) (l : List Val)
    (h : ∀ v ∈ l, ∃ w, k v = .ok w) :
    ∃ l', l.mapM k = .ok l' ∧ l'.length = l.length ∧
      ∀ w ∈ l', ∃ v ∈ l, k v = .ok w := by
  induction l with
  | nil =>
      refine ⟨[], rfl, rfl, ?_⟩
      intro w hw
      cases hw
  | cons a as ih =>
      obtain ⟨w, hw⟩ := h a (List.mem_cons_self a as)
      obtain ⟨l', hl', hlen, hmem⟩ :=
        ih (fun v hv => h v (List.mem_cons_of_mem a hv))
      refine ⟨w :: l', ?_, ?_, ?_⟩
      · rw [List.mapM_cons, hw, hl']
        rfl
      · simp [hlen]
      · intro u hu
        rcases List.mem_cons.mp hu with rfl | hu2
        · exact ⟨a, List.mem_cons_self a as, hw⟩
        · obtain ⟨v, hv, hkv⟩ := hmem u hu2
          exact ⟨v, List.mem_cons_of_mem a hv, hkv⟩

theorem zipWithE_ok_of_forall (op : Val → Val → Except String Val)
    (l1 l2 : List Val)
    (h : ∀ a ∈ l1, ∀ b ∈ l2, ∃ w, op a b = .ok w) :
    ∃ l', zipWithE op l1 l2 = .ok l' ∧
      l'.length = min l1.length l2.length := by
  induction l1 generalizing l2 with
  | nil => exact ⟨[], rfl, by simp⟩
  | cons a as ih =>
      cases l2 with
      | nil => exact ⟨[], rfl, by simp⟩
      | cons b bs =>
          obtain ⟨w, hw⟩ :=
            h a (List.mem_cons_self a as) b (List.mem_cons_self b bs)
          obtain ⟨l', hl', hlen⟩ := ih bs (fun x hx y hy =>
            h x (List.mem_cons_of_mem a hx) y (List.mem_cons_of_mem b hy))
          refine ⟨w :: l', ?_, ?_⟩
          · unfold zipWithE
            rw [hw, hl']
          · simp only [List.length_cons, hlen, Nat.succ_min_succ]

end TelcoFeatureEngineer

theorem Frame.col_length_of_mem (f : Frame) (c : String) (hc : c ∈ f.cols) :
    (f.col c).length = f.rows.length := by
  obtain ⟨i, hi⟩ := (colIdxAux_isSome_iff c f.cols).mpr hc
  rw [Frame.col_eq f c i hi, List.length_map]

theorem Frame.setCol_not_mem (f : Frame) (c c' : String) (vs : List Val)
    (hc : c' ∉ f.cols) (hne : c' ≠ c) : c' ∉ (f.setCol c vs).cols := by
  unfold Frame.setCol
  cases f.colIdx c with
  | some i => exact hc
  | none =>
      intro hmem
      have hmem2 : c' ∈ f.cols ++ [c] := hmem
      rcases List.mem_append.mp hmem2 with h | h
      · exact hc h
      · exact hne (List.mem_singleton.mp h)

namespace TelcoFeatureEngineer

/-- What the derivation preserves of its input while inserting feature
columns: shape, the seven unconditionally-read columns, and the exact
content of the three numeric ones. -/
def ReqCols (f0 F : Frame) : Prop :=
  F.WF ∧ F.rows.length = f0.rows.length ∧
  "Partner" ∈ F.cols ∧ "Dependents" ∈ F.cols ∧ "Contract" ∈ F.cols ∧
  "MultipleLines" ∈ F.cols ∧ "MonthlyCharges" ∈ F.cols ∧
  "tenure" ∈ F.cols ∧ "TotalCharges" ∈ F.cols ∧
  F.col "MonthlyCharges" = f0.col "MonthlyCharges" ∧
  F.col "tenure" = f0.col "tenure" ∧
  F.col "TotalCharges" = f0.col "TotalCharges"

theorem reqCols_setCol (f0 F : Frame) (nm : String) (vs : List Val)
    (hlen : vs.length = F.rows.length)
    (h1 : nm ≠ "MonthlyCharges") (h2 : nm ≠ "tenure")
    (h3 : nm ≠ "TotalCharges") (h : ReqCols f0 F) :
    ReqCols f0 (F.setCol nm vs) := by
  obtain ⟨hwf, hrl, m1, m2, m3, m4, m5, m6, m7, c1, c2, c3⟩ := h
  exact ⟨Frame.setCol_wf F nm vs hwf hlen,
    (Frame.setCol_rows_length F nm vs hlen).trans hrl,
    Frame.setCol_cols_mem F nm _ vs m1,
    Frame.setCol_cols_mem F nm _ vs m2,
    Frame.setCol_cols_mem F nm _ vs m3,
    Frame.setCol_cols_mem F nm _ vs m4,
    Frame.setCol_cols_mem F nm _ vs m5,
    Frame.setCol_cols_mem F nm _ vs m6,
    Frame.setCol_cols_mem F nm _ vs m7,
    (Frame.setCol_col_ne F nm _ vs hwf hlen (Ne.symm h1)).trans c1,
    (Frame.setCol_col_ne F nm _ vs hwf hlen (Ne.symm h2)).trans c2,
    (Frame.setCol_col_ne F nm _ vs hwf hlen (Ne.symm h3)).trans c3⟩

theorem reqCols_totalFold (f0 : Frame) (cs : List String) (F : Frame)
    (h : ReqCols f0 F) (hfts : "feature_total_services" ∈ F.cols) :
    ReqCols f0 (cs.foldl totalServicesStep F) ∧
      "feature_total_services" ∈ (cs.foldl totalServicesStep F).cols := by
  induction cs generalizing F with
  | nil => exact ⟨h, hfts⟩
  | cons c rest ih =>
      rw [List.foldl_cons]
      refine ih _ ?_ ?_
      · unfold totalServicesStep
        by_cases hc : c ∈ F.cols
        · rw [if_pos hc]
          refine reqCols_setCol f0 F _ _ ?_ (by decide) (by decide) (by decide) h
          rw [List.length_zipWith, Frame.col_length_of_mem F _ hfts,
            List.length_map, Frame.col_length_of_mem F _ hc, min_self]
        · rw [if_neg hc]
          exact h
      · unfold totalServicesStep
        by_cases hc : c ∈ F.cols
        · rw [if_pos hc]
          exact Frame.setCol_mem_self F _ _
        · rw [if_neg hc]
          exact hfts

theorem totalFold_not_mem (cs : List String) (F : Frame) (c : String)
    (hc : c ∉ F.cols) (hname : c ≠ "feature_total_services") :
    c ∉ (cs.foldl totalServicesStep F).cols := by
  induction cs generalizing F with
  | nil => exact hc
  | cons c0 rest ih =>
      rw [List.foldl_cons]
      apply ih
      unfold totalServicesStep
      by_cases h0 : c0 ∈ F.cols
      · rw [if_pos h0]
        exact Frame.setCol_not_mem F _ c _ hc hname
      · rw [if_neg h0]
        exact hc

theorem hasFamilyStep_ok (f0 F : Frame) (h : ReqCols f0 F) :
    ∃ G, hasFamilyStep F = .ok G ∧ ReqCols f0 G := by
  obtain ⟨hwf, hrl, m1, m2, m3, m4, m5, m6, m7, c1, c2, c3⟩ := h
  have heq : hasFamilyStep F = .ok (F.setCol "feature_has_family"
      (List.zipWith (fun a b =>
        boolInd (a = Val.str "Yes" ∨ b = Val.str "Yes"))
        (F.col "Partner") (F.col "Dependents"))) := by
    unfold hasFamilyStep Frame.colE
    rw [if_pos m1, if_pos m2]
  refine ⟨_, heq,
    reqCols_setCol f0 F _ _ ?_ (by decide) (by decide) (by decide)
      ⟨hwf, hrl, m1, m2, m3, m4, m5, m6, m7, c1, c2, c3⟩⟩
  rw [List.length_zipWith, Frame.col_length_of_mem F _ m1,
    Frame.col_length_of_mem F _ m2, min_self]

theorem isSeniorStep_ok (f0 F : Frame) (h : ReqCols f0 F) :
    ∃ G, isSeniorStep F = .ok G ∧ ReqCols f0 G := by
  unfold isSeniorStep
  by_cases hsc : "SeniorCitizen" ∈ F.cols
  · rw [if_pos hsc]
    exact ⟨_, rfl,
      reqCols_setCol f0 F _ _ (Frame.col_length_of_mem F _ hsc)
        (by decide) (by decide) (by decide) h⟩
  · rw [if_neg hsc]
    exact ⟨F, rfl, h⟩

theorem longContractStep_ok (f0 F : Frame) (h : ReqCols f0 F) :
    ∃ G, longContractStep F = .ok G ∧ ReqCols f0 G := by
  obtain ⟨hwf, hrl, m1, m2, m3, m4, m5, m6, m7, c1, c2, c3⟩ := h
  have heq : longContractStep F = .ok (F.setCol "feature_long_contract"
      ((F.col "Contract").map
        (fun v => boolInd (v ≠ Val.str "Month-to-month")))) := by
    unfold longContractStep Frame.colE
    rw [if_pos m3]
  refine ⟨_, heq,
    reqCols_setCol f0 F _ _ ?_ (by decide) (by decide) (by decide)
      ⟨hwf, hrl, m1, m2, m3, m4, m5, m6, m7, c1, c2, c3⟩⟩
  rw [List.length_map, Frame.col_length_of_mem F _ m3]

theorem multipleLinesStep_ok (f0 F : Frame) (h : ReqCols f0 F) :
    ∃ G, multipleLinesStep F = .ok G ∧ ReqCols f0 G := by
  obtain ⟨hwf, hrl, m1, m2, m3, m4, m5, m6, m7, c1, c2, c3⟩ := h
  have heq : multipleLinesStep F = .ok (F.setCol "feature_multiple_lines"
      ((F.col "MultipleLines").map
        (fun v => boolInd (v = Val.str "Yes")))) := by
    unfold multipleLinesStep Frame.colE
    rw [if_pos m4]
  refine ⟨_, heq,
    reqCols_setCol f0 F _ _ ?_ (by decide) (by decide) (by decide)
      ⟨hwf, hrl, m1, m2, m3, m4, m5, m6, m7, c1, c2, c3⟩⟩
  rw [List.length_map, Frame.col_length_of_mem F _ m4]

theorem monthlyPerTenureStep_ok (f0 F : Frame) (h : ReqCols f0 F)
    (hm0 : "MonthlyCharges" ∈ f0.cols) (ht0 : "tenure" ∈ f0.cols)
    (hMn : ∀ v ∈ f0.col "MonthlyCharges", numOrNaB v = true)
    (htn : ∀ v ∈ f0.col "tenure", numOrNaB v = true) :
    ∃ G, monthlyPerTenureStep F = .ok G ∧ ReqCols f0 G := by
  obtain ⟨hwf, hrl, m1, m2, m3, m4, m5, m6, m7, c1, c2, c3⟩ := h
  obtain ⟨t1, ht1, ht1len, ht1mem⟩ :=
    mapM_except_ok_of_forall valAdd1 (f0.col "tenure")
      (fun v hv => (valAdd1_ok v (htn v hv)).imp (fun w hw => hw.1))
  have ht1na : ∀ w ∈ t1, numOrNaB w = true := by
    intro w hw
    obtain ⟨v, hv, hkv⟩ := ht1mem w hw
    obtain ⟨w', hw', hna⟩ := valAdd1_ok v (htn v hv)
    rw [hkv] at hw'
    cases hw'
    exact hna
  obtain ⟨rs, hrs, hrslen⟩ :=
    zipWithE_ok_of_forall valDiv (f0.col "MonthlyCharges") t1
      (fun a ha b hb => valDiv_ok a b (hMn a ha) (ht1na b hb))
  have heq : monthlyPerTenureStep F =
      .ok (F.setCol "feature_monthly_per_tenure" rs) := by
    unfold monthlyPerTenureStep Frame.colE
    rw [if_pos m5, if_pos m6, c1, c2]
    simp only [ht1, hrs]
  refine ⟨_, heq,
    reqCols_setCol f0 F _ _ ?_ (by decide) (by decide) (by decide)
      ⟨hwf, hrl, m1, m2, m3, m4, m5, m6, m7, c1, c2, c3⟩⟩
  rw [hrslen, ht1len, Frame.col_length_of_mem f0 "MonthlyCharges" hm0,
    Frame.col_length_of_mem f0 "tenure" ht0, min_self, hrl]

theorem totalPerTenureStep_ok (f0 F : Frame) (h : ReqCols f0 F)
    (hT0 : "TotalCharges" ∈ f0.cols) (ht0 : "tenure" ∈ f0.cols)
    (hTn : ∀ v ∈ f0.col "TotalCharges", numOrNaB v = true)
    (htn : ∀ v ∈ f0.col "tenure", numOrNaB v = true) :
    ∃ G, totalPerTenureStep F = .ok G ∧ ReqCols f0 G := by
  obtain ⟨hwf, hrl, m1, m2, m3, m4, m5, m6, m7, c1, c2, c3⟩ := h
  obtain ⟨t1, ht1, ht1len, ht1mem⟩ :=
    mapM_except_ok_of_forall valAdd1 (f0.col "tenure")
      (fun v hv => (valAdd1_ok v (htn v hv)).imp (fun w hw => hw.1))
  have ht1na : ∀ w ∈ t1, numOrNaB w = true := by
    intro w hw
    obtain ⟨v, hv, hkv⟩ := ht1mem w hw
    obtain ⟨w', hw', hna⟩ := valAdd1_ok v (htn v hv)
    rw [hkv] at hw'
    cases hw'
    exact hna
  obtain ⟨rs, hrs, hrslen⟩ :=
    zipWithE_ok_of_forall valDiv (f0.col "TotalCharges") t1
      (fun a ha b hb => valDiv_ok a b (hTn a ha) (ht1na b hb))
  have heq : totalPerTenureStep F =
      .ok (F.setCol "feature_total_per_tenure" rs) := by
    unfold totalPerTenureStep Frame.colE
    rw [if_pos m7, if_pos m6, c3, c2]
    simp only [ht1, hrs]
  refine ⟨_, heq,
    reqCols_setCol f0 F _ _ ?_ (by decide) (by decide) (by decide)
      ⟨hwf, hrl, m1, m2, m3, m4, m5, m6, m7, c1, c2, c3⟩⟩
  rw [hrslen, ht1len, Frame.col_length_of_mem f0 "TotalCharges" hT0,
    Frame.col_length_of_mem f0 "tenure" ht0, min_self, hrl]

theorem chargesDifferenceStep_ok (f0 F : Frame) (h : ReqCols f0 F)
    (hT0 : "TotalCharges" ∈ f0.cols) (hm0 : "MonthlyCharges" ∈ f0.cols)
    (hTn : ∀ v ∈ f0.col "TotalCharges", numOrNaB v = true)
    (hMn : ∀ v ∈ f0.col "MonthlyCharges", numOrNaB v = true) :
    ∃ G, chargesDifferenceStep F = .ok G ∧ ReqCols f0 G := by
  obtain ⟨hwf, hrl, m1, m2, m3, m4, m5, m6, m7, c1, c2, c3⟩ := h
  obtain ⟨rs, hrs, hrslen⟩ :=
    zipWithE_ok_of_forall valSub (f0.col "TotalCharges")
      (f0.col "MonthlyCharges")
      (fun a ha b hb => valSub_ok a b (hTn a ha) (hMn b hb))
  have heq : chargesDifferenceStep F =
      .ok (F.setCol "feature_charges_difference" rs) := by
    unfold chargesDifferenceStep Frame.colE
    rw [if_pos m7, if_pos m5, c3, c1]
    simp only [hrs]
  refine ⟨_, heq,
    reqCols_setCol f0 F _ _ ?_ (by decide) (by decide) (by decide)
      ⟨hwf, hrl, m1, m2, m3, m4, m5, m6, m7, c1, c2, c3⟩⟩
  rw [hrslen, Frame.col_length_of_mem f0 "TotalCharges" hT0,
    Frame.col_length_of_mem f0 "MonthlyCharges" hm0, min_self, hrl]

/-- Whenever `Partner` is absent — in particular on an empty frame — the
unguarded `data['Partner']` read makes the whole derivation raise. -/
theorem create_derived_absent_partner (f0 : Frame)
    (hp : "Partner" ∉ f0.cols) :
    create_derived_features f0 = .error "KeyError: Partner" := by
  unfold create_derived_features
  have h1 : "Partner" ∉
      (service_columns.foldl totalServicesStep (totalServicesInit f0)).cols := by
    apply totalFold_not_mem
    · exact Frame.setCol_not_mem f0 _ _ _ hp (by decide)
    · decide
  have h2 : hasFamilyStep
      (service_columns.foldl totalServicesStep (totalServicesInit f0)) =
      .error ("KeyError: " ++ "Partner") := by
    unfold hasFamilyStep Frame.colE
    rw [if_neg h1]
  rw [h2, exceptStep_error, exceptStep_error, exceptStep_error,
    exceptStep_error, exceptStep_error, exceptStep_error]
  rfl

/-- With the seven unconditionally-read columns present and the three
numeric ones numeric, the derivation succeeds — no matter which of the
guarded optional columns (the service indicators, `SeniorCitizen`) are
absent. -/
theorem create_derived_ok (f0 : Frame) (hwf : f0.WF)
    (hP : "Partner" ∈ f0.cols) (hD : "Dependents" ∈ f0.cols)
    (hC : "Contract" ∈ f0.cols) (hML : "MultipleLines" ∈ f0.cols)
    (hM : "MonthlyCharges" ∈ f0.cols) (ht : "tenure" ∈ f0.cols)
    (hT : "TotalCharges" ∈ f0.cols)
    (hMn : ∀ v ∈ f0.col "MonthlyCharges", numOrNaB v = true)
    (htn : ∀ v ∈ f0.col "tenure", numOrNaB v = true)
    (hTn : ∀ v ∈ f0.col "TotalCharges", numOrNaB v = true) :
    ∃ g, create_derived_features f0 = .ok g := by
  have hR0 : ReqCols f0 f0 :=
    ⟨hwf, rfl, hP, hD, hC, hML, hM, ht, hT, rfl, rfl, rfl⟩
  have hRinit : ReqCols f0 (totalServicesInit f0) := by
    refine reqCols_setCol f0 f0 _ _ ?_ (by decide) (by decide) (by decide) hR0
    rw [List.length_map]
  obtain ⟨hR1, -⟩ :=
    reqCols_totalFold f0 service_columns (totalServicesInit f0) hRinit
      (Frame.setCol_mem_self f0 _ _)
  obtain ⟨G1, hG1, hRG1⟩ := hasFamilyStep_ok f0 _ hR1
  obtain ⟨G2, hG2, hRG2⟩ := isSeniorStep_ok f0 G1 hRG1
  obtain ⟨G3, hG3, hRG3⟩ := longContractStep_ok f0 G2 hRG2
  obtain ⟨G4, hG4, hRG4⟩ := multipleLinesStep_ok f0 G3 hRG3
  obtain ⟨G5, hG5, hRG5⟩ := monthlyPerTenureStep_ok f0 G4 hRG4 hM ht hMn htn
  obtain ⟨G6, hG6, hRG6⟩ := totalPerTenureStep_ok f0 G5 hRG5 hT ht hTn htn
  obtain ⟨G7, hG7, -⟩ := chargesDifferenceStep_ok f0 G6 hRG6 hT hM hTn hMn
  refine ⟨G7, ?_⟩
  unfold create_derived_features
  rw [hG1, exceptStep_ok, hG2, exceptStep_ok, hG3, exceptStep_ok,
    hG4, exceptStep_ok, hG5, exceptStep_ok, hG6, exceptStep_ok, hG7]

/-- C7 (amended): feature derivation never raises on absence of the
*guarded* optional columns — the eight service indicators and
`SeniorCitizen` carry a presence check, and the success half below makes
no assumption on them — but the seven unguarded reads are required:
whenever `Partner` is absent (the empty dataset included) the derivation,
and with it `engineer_features`, raises a `KeyError` instead of producing
an empty feature matrix. -/
theorem C7_derivation_optional_columns :
    (∀ f0 : Frame, "Partner" ∉ f0.cols →
      create_derived_features f0 = .error "KeyError: Partner" ∧
      engineer_features f0 [] = .error "KeyError: Partner") ∧
    (∀ f0 : Frame, f0.WF → "Partner" ∈ f0.cols → "Dependents" ∈ f0.cols →
      "Contract" ∈ f0.cols → "MultipleLines" ∈ f0.cols →
      "MonthlyCharges" ∈ f0.cols → "tenure" ∈ f0.cols →
      "TotalCharges" ∈ f0.cols →
      (∀ v ∈ f0.col "MonthlyCharges", numOrNaB v = true) →
      (∀ v ∈ f0.col "tenure", numOrNaB v = true) →
      (∀ v ∈ f0.col "TotalCharges", numOrNaB v = true) →
      ∃ g, create_derived_features f0 = .ok g) := by
  constructor
  · intro f0 hp
    have h := create_derived_absent_partner f0 hp
    refine ⟨h, ?_⟩
    unfold engineer_features
    rw [h]
  · intro f0 hwf hP hD hC hML hM ht hT hMn htn hTn
    exact create_derived_ok f0 hwf hP hD hC hML hM ht hT hMn htn hTn

/-- C7 counterexample to the claim as stated: deriving features from the
empty dataset raises a `KeyError` on the unguarded `Partner` read — it
does not return an empty matrix with zero feature columns. -/
theorem C7_empty_input_counterexample :
    engineer_features (⟨[], []⟩ : Frame) [] = .error "KeyError: Partner" ∧
    ∀ p, engineer_features (⟨[], []⟩ : Frame) [] ≠ .ok p := by
  have h : engineer_features (⟨[], []⟩ : Frame) [] =
      .error "KeyError: Partner" := by rfl
  refine ⟨h, fun p hp => ?_⟩
  rw [h] at hp
  cases hp

/-- A frame carrying exactly the seven unconditionally-read columns and
none of the guarded optional ones. -/
def demoFE : Frame :=
  ⟨["Partner", "Dependents", "Contract", "MultipleLines",
    "MonthlyCharges", "tenure", "TotalCharges"],
   [[.str "Yes", .str "No", .str "Month-to-month", .str "No",
     .num 50, .num 2, .num 100]]⟩

theorem C7_derivation_optional_columns_witness :
    (engineer_features (⟨[], []⟩ : Frame) [] = .error "KeyError: Partner") ∧
    (∃ g, create_derived_features demoFE = .ok g) :=
  ⟨(C7_derivation_optional_columns.1 ⟨[], []⟩ (by decide)).2,
   C7_derivation_optional_columns.2 demoFE
     (fun r hr => by fin_cases hr <;> rfl)
     (by decide) (by decide) (by decide) (by decide) (by decide) (by decide)
     (by decide) (by decide) (by decide) (by decide)⟩

/-- The training-time gender column: both labels occur. -/
def trainGenderFrame : Frame := ⟨["gender"], [[.str "Female"], [.str "Male"]]⟩

/-- A later inference batch: only `Male` occurs. -/
def newGenderFrame : Frame := ⟨["gender"], [[.str "Male"]]⟩

/-- The data processing `MLPipeline.predict` performs before calling the
best model: `clean_data`, then `engineer_features` on the same engineer
object — whose label encoders `_encode_categorical_features` refits. -/
def predictProcessing (f : Frame) (encs : List (String × List String)) :
    Except String (Frame × List (String × List String)) :=
  match TelcoDataCleaner.clean_data f with
  | .error e => .error e
  | .ok f1 => engineer_features f1 encs

/-- C4: the label map is *not* reused on inference. The predict path
re-runs `engineer_features`, whose encoding step calls
`LabelEncoder().fit_transform` afresh: on a training batch carrying both
gender labels the fit maps Male to code 1, but a later inference batch
carrying only Male is encoded against a freshly fitted map — Male
becomes code 0 and the stored fitted classes are overwritten — whereas
reusing the fitted map (what the spec mandates) encodes Male as 1. -/
theorem C4_label_map_refit_on_inference :
    (∀ (f f1 : Frame) (encs : List (String × List String)),
      TelcoDataCleaner.clean_data f = .ok f1 →
      predictProcessing f encs = engineer_features f1 encs) ∧
    encode_categorical_features trainGenderFrame [] =
      (trainGenderFrame.setCol "gender_encoded" [.num 0, .num 1],
       [("gender", ["Female", "Male"])]) ∧
    encode_categorical_features newGenderFrame
        [("gender", ["Female", "Male"])] =
      (newGenderFrame.setCol "gender_encoded" [.num 0],
       [("gender", ["Male"])]) ∧
    leTransform ["Female", "Male"] (newGenderFrame.col "gender") =
      .ok [.num 1] ∧
    (Val.num 0 : Val) ≠ .num 1 := by
  refine ⟨?_, by decide, by decide, by rfl, by decide⟩
  intro f f1 encs h
  unfold predictProcessing
  rw [h]

theorem C4_label_map_refit_on_inference_witness :
    TelcoDataCleaner.clean_data TelcoDataCleaner.demoCleanE =
      .ok TelcoDataCleaner.demoCleanE ∧
    predictProcessing TelcoDataCleaner.demoCleanE [] =
      engineer_features TelcoDataCleaner.demoCleanE [] :=
  ⟨by rfl,
   C4_label_map_refit_on_inference.1 TelcoDataCleaner.demoCleanE
     TelcoDataCleaner.demoCleanE [] (by rfl)⟩

end TelcoFeatureEngineer

/-! ### Store-level aliasing model

`clean_data` and `engineer_features` both start from `data.copy()` and
mutate only that fresh object. A store is the list of live frames; a
caller passes a reference (an index), the callee allocates a fresh slot
holding the copy, works there, and returns the fresh reference. -/

/-- The empty frame, the default of out-of-range store reads. -/
def emptyFrame : Frame := ⟨[], []⟩

/-- `TelcoDataCleaner.clean_data` at store level: copy the argument into
a fresh slot, run the value-level pipeline on the copy (on failure the
fresh slot keeps whatever intermediate state; the initial copy stands in
for it, no claim reads it), return the fresh reference. -/
def clean_data_ref (st : List Frame) (i : ℕ) :
    List Frame × Except String ℕ :=
  match TelcoDataCleaner.clean_data (st.getD i emptyFrame) with
  | .error e => (st ++ [st.getD i emptyFrame], .error e)
  | .ok E => (st ++ [E], .ok st.length)

/-- `TelcoFeatureEngineer.engineer_features` at store level. -/
def engineer_features_ref (st : List Frame) (i : ℕ)
    (encs : List (String × List String)) :
    List Frame × Except String (ℕ × List (String × List String)) :=
  match TelcoFeatureEngineer.engineer_features (st.getD i emptyFrame) encs with
  | .error e => (st ++ [st.getD i emptyFrame], .error e)
  | .ok (g, encs2) => (st ++ [g], .ok (st.length, encs2))

/-- C10: neither cleaning nor feature derivation mutates the caller's
dataset — every frame the caller can reach is unchanged by the call, and
the returned dataset is a fresh reference, distinct from every
caller-visible one. -/
theorem C10_no_caller_mutation (st : List Frame) (i k : ℕ)
    (hk : k < st.length) :
    ∀ encs,
    (clean_data_ref st i).1.getD k emptyFrame = st.getD k emptyFrame ∧
    (engineer_features_ref st i encs).1.getD k emptyFrame =
      st.getD k emptyFrame ∧
    (∀ j, (clean_data_ref st i).2 = .ok j → k ≠ j) ∧
    (∀ j encs2, (engineer_features_ref st i encs).2 = .ok (j, encs2) →
      k ≠ j) := by
  intro encs
  refine ⟨?_, ?_, ?_, ?_⟩
  · unfold clean_data_ref
    cases TelcoDataCleaner.clean_data (st.getD i emptyFrame) with
    | error e => exact List.getD_append st _ emptyFrame k hk
    | ok E => exact List.getD_append st _ emptyFrame k hk
  · unfold engineer_features_ref
    cases TelcoFeatureEngineer.engineer_features (st.getD i emptyFrame) encs with
    | error e => exact List.getD_append st _ emptyFrame k hk
    | ok p =>
        cases p with
        | mk g encs2 => exact List.getD_append st _ emptyFrame k hk
  · intro j hj
    unfold clean_data_ref at hj
    cases hc : TelcoDataCleaner.clean_data (st.getD i emptyFrame) with
    | error e =>
        rw [hc] at hj
        cases hj
    | ok E =>
        rw [hc] at hj
        have hj2 : (Except.ok st.length : Except String ℕ) = .ok j := hj
        cases hj2
        exact Nat.ne_of_lt hk
  · intro j encs2 hj
    unfold engineer_features_ref at hj
    cases hc : TelcoFeatureEngineer.engineer_features
        (st.getD i emptyFrame) encs with
    | error e =>
        rw [hc] at hj
        cases hj
    | ok p =>
        rw [hc] at hj
        cases p with
        | mk g e2 =>
            have hj2 : (Except.ok (st.length, e2) :
                Except String (ℕ × List (String × List String))) = .ok (j, encs2) := hj
            cases hj2
            exact Nat.ne_of_lt hk

theorem C10_no_caller_mutation_witness :
    0 < [TelcoDataCleaner.demoCleanF].length ∧
    ((clean_data_ref [TelcoDataCleaner.demoCleanF] 0).1.getD 0 emptyFrame =
        [TelcoDataCleaner.demoCleanF].getD 0 emptyFrame ∧
      (engineer_features_ref [TelcoDataCleaner.demoCleanF] 0 []).1.getD 0
          emptyFrame = [TelcoDataCleaner.demoCleanF].getD 0 emptyFrame ∧
      (∀ j, (clean_data_ref [TelcoDataCleaner.demoCleanF] 0).2 = .ok j →
        0 ≠ j) ∧
      (∀ j encs2,
        (engineer_features_ref [TelcoDataCleaner.demoCleanF] 0 []).2 =
          .ok (j, encs2) → 0 ≠ j)) :=
  ⟨by decide,
   C10_no_caller_mutation [TelcoDataCleaner.demoCleanF] 0 0 (by decide) []⟩
